import Mathlib

/-!
Verification of the flanker domain-spelling corrector
(`flanker/addresslib/corrector.py`) against its design specification.

The module is embedded shallowly:

* `MOST_COMMON_DOMAINS` and `LOOKUP_TABLE` are the module's static data.
* `difflib.get_close_matches` / `SequenceMatcher` (standard library
  collaborator of `suggest`) is embedded faithfully: the `b2j` index with
  autojunk, the longest-match dynamic program with its two non-junk
  extension loops (the two junk extension loops never fire because the
  matcher is created with `isjunk=None`, so `bjunk` is empty), the
  matching-block recursion, `ratio`, `quick_ratio`, `real_quick_ratio`,
  the `[0, 1]` cutoff validation, and the `heapq.nlargest(1)` selection
  over `(score, string)` tuples.
* `Levenshtein.ratio` (third-party C extension, not part of this
  repository) is modelled from its documented semantics.
* Python floats are modelled as exact rationals; all scores here are
  small-denominator rationals, far from any double-rounding boundary.
* Exceptions are modelled with `Except String`; a raised exception is an
  `Except.error` carrying the exception class name.
-/

namespace Flanker

/-- Default character used with `List.getD`.  Every dereference that the
    Python code performs is in range (proved where it matters), so the
    default never influences a result. -/
def dCh : Char := ' '

/-! ## Static reference data (module-level globals of corrector.py) -/

def MOST_COMMON_DOMAINS : List String := [
  "mailgun.net",
  "163.com",
  "aim.com",
  "alice.it",
  "aol.co.uk",
  "aol.com",
  "att.net",
  "azet.sk",
  "bell.net",
  "bellsouth.net",
  "bigpond.com",
  "bigpond.com.au",
  "bigpond.net.au",
  "bluewin.ch",
  "blueyonder.co.uk",
  "bol.com.br",
  "btinternet.com",
  "btopenworld.com",
  "cableone.net",
  "centrum.sk",
  "centurylink.net",
  "centurytel.net",
  "charter.net",
  "comcast.net",
  "cox.net",
  "cs.com",
  "earthlink.net",
  "email.com",
  "email.cz",
  "email.it",
  "embarqmail.com",
  "excite.com",
  "fastwebnet.it",
  "free.fr",
  "freemail.hu",
  "freenet.de",
  "frontier.com",
  "frontiernet.net",
  "fuse.net",
  "gmail.com",
  "gmx.at",
  "gmx.ch",
  "gmx.com",
  "gmx.de",
  "gmx.net",
  "google.com",
  "googlemail.com",
  "hanmail.net",
  "home.nl",
  "hotmail.be",
  "hotmail.ca",
  "hotmail.co.jp",
  "hotmail.co.nz",
  "hotmail.co.uk",
  "hotmail.com",
  "hotmail.com.ar",
  "hotmail.com.au",
  "hotmail.de",
  "hotmail.es",
  "hotmail.fr",
  "hotmail.gr",
  "hotmail.it",
  "hotmail.nl",
  "hotmail.no",
  "hotmail.se",
  "hughes.net",
  "icloud.com",
  "iinet.net.au",
  "inbox.lv",
  "inbox.ru",
  "interia.pl",
  "juno.com",
  "laposte.net",
  "libero.it",
  "list.ru",
  "live.be",
  "live.ca",
  "live.co.uk",
  "live.com",
  "live.com.ar",
  "live.com.au",
  "live.com.mx",
  "live.de",
  "live.dk",
  "live.fr",
  "live.it",
  "live.nl",
  "live.no",
  "live.se",
  "mac.com",
  "mail.com",
  "mail.ru",
  "me.com",
  "microsoft.com",
  "mindspring.com",
  "msn.com",
  "naver.com",
  "netscape.net",
  "netspace.net.au",
  "netzero.com",
  "netzero.net",
  "neuf.fr",
  "nhs.net",
  "ntlworld.com",
  "o2.pl",
  "online.no",
  "optimum.net",
  "optonline.net",
  "optusnet.com.au",
  "orange.fr",
  "ostrovok.ru",
  "outlook.com",
  "outlook.com.au",
  "outlook.de",
  "outlook.es",
  "outlook.fr",
  "outlook.it",
  "pacbell.net",
  "planet.nl",
  "prodigy.net",
  "prodigy.net.mx",
  "protonmail.com",
  "q.com",
  "qq.com",
  "rambler.ru",
  "reagan.com",
  "rediffmail.com",
  "roadrunner.com",
  "rocketmail.com",
  "rogers.com",
  "sbcglobal.net",
  "seznam.cz",
  "sfr.fr",
  "shaw.ca",
  "sky.com",
  "skynet.be",
  "suddenlink.net",
  "swbell.net",
  "sympatico.ca",
  "t-online.de",
  "talktalk.net",
  "telefonica.net",
  "telenet.be",
  "telfort.nl",
  "telia.com",
  "telus.net",
  "telusplanet.net",
  "tiscali.co.uk",
  "tiscali.it",
  "ukr.net",
  "uol.com.br",
  "usa.net",
  "vepl.com",
  "verizon.net",
  "videotron.ca",
  "virgilio.it",
  "virgin.net",
  "virginmedia.com",
  "wanadoo.fr",
  "web.de",
  "windowslive.com",
  "windstream.net",
  "wp.pl",
  "xs4all.nl",
  "xtra.co.nz",
  "y7mail.com",
  "ya.ru",
  "yahoo.ca",
  "yahoo.co.id",
  "yahoo.co.in",
  "yahoo.co.jp",
  "yahoo.co.nz",
  "yahoo.co.uk",
  "yahoo.com",
  "yahoo.com.ar",
  "yahoo.com.au",
  "yahoo.com.br",
  "yahoo.com.hk",
  "yahoo.com.mx",
  "yahoo.com.my",
  "yahoo.com.ph",
  "yahoo.com.sg",
  "yahoo.com.tw",
  "yahoo.de",
  "yahoo.es",
  "yahoo.fr",
  "yahoo.gr",
  "yahoo.ie",
  "yahoo.in",
  "yahoo.it",
  "yahoo.no",
  "yahoo.se",
  "yandex.com",
  "yandex.ru",
  "ymail.com",
  "ziggo.nl",
  "zoominternet.net"
]

/-- The typo lookup dict, embedded as an association list in source order
    (its keys are pairwise distinct). -/
def LOOKUP_TABLE : List (String × String) := [
  ("yahoo", "yahoo.com"),
  ("gmail", "gmail.com"),
  ("hotmail", "hotmail.com"),
  ("live", "live.com"),
  ("outlook", "outlook.com"),
  ("msn", "msn.com"),
  ("googlemail", "googlemail.com"),
  ("aol", "aol.com"),
  ("aim", "aim.com"),
  ("icloud", "icloud.com"),
  ("me", "me.com"),
  ("mac", "mac.com"),
  ("facebook", "facebook.com"),
  ("comcast", "comcast.net"),
  ("sbcglobal", "sbcglobal.net"),
  ("bellsouth", "bellsouth.net"),
  ("verizon", "verizon.net"),
  ("earthlink", "earthlink.net"),
  ("cox", "cox.net"),
  ("charter", "charter.net"),
  ("shaw", "shaw.ca"),
  ("bell", "bell.net")
]

/-! ## difflib.SequenceMatcher embedding

`get_close_matches` sets `seq2 = word` and, for each candidate `x` of the
word list, `seq1 = x`.  Throughout this section `a` is seq1 (a reference
domain) and `b` is seq2 (the input word). -/

/-- `__chain_b` before junk removal: for each character `c`, the increasing
    list of positions of `c` in `b` (Python builds the same lists by
    enumerating `b`). -/
def b2jBase (b : List Char) (c : Char) : List Nat :=
  (List.range b.length).filter (fun j => b.getD j dCh = c)

/-- Autojunk: when `len(b) >= 200`, characters occurring more than
    `len(b) // 100 + 1` times are "popular" and dropped from `b2j`.
    (`isjunk` is `None` here, so `bjunk` is always empty.) -/
def bPopular (b : List Char) : List Char :=
  if 200 ≤ b.length then
    b.dedup.filter (fun c => b.length / 100 + 1 < (b2jBase b c).length)
  else []

/-- `self.b2j` after popular-entry removal. -/
def b2j (b : List Char) (c : Char) : List Nat :=
  if c ∈ bPopular b then [] else b2jBase b c

/-- One iteration of the inner `for j in b2j.get(a[i], nothing)` loop of
    `find_longest_match`.  `old` is the previous row's `j2len`; the state
    is the row being built together with the running best block.
    Python's `j2len.get(j-1, 0)` with `j = 0` reads key `-1` (absent), so
    the `j = 0` case contributes `0`.  The best block `(i-k+1, j-k+1, k)`
    is written `(i+1-k, j+1-k, k)`; `k ≤ i+1` and `k ≤ j+1` always hold,
    so truncated subtraction agrees with Python's arithmetic. -/
def flmStep (old : Nat → Nat) (i : Nat) (st : (Nat → Nat) × (Nat × Nat × Nat)) (j : Nat) :
    (Nat → Nat) × (Nat × Nat × Nat) :=
  let k := (if j = 0 then 0 else old (j - 1)) + 1
  (fun q => if q = j then k else st.1 q,
   if st.2.2.2 < k then (i + 1 - k, j + 1 - k, k) else st.2)

/-- One row of the `for i in range(alo, ahi)` loop: `newj2len` starts
    empty; `continue`/`break` on the increasing index list are the
    `blo ≤ j` filter and the `j < bhi` take-while. -/
def flmRow (b2jf : Char → List Nat) (a : List Char) (blo bhi : Nat)
    (st : (Nat → Nat) × (Nat × Nat × Nat)) (i : Nat) : (Nat → Nat) × (Nat × Nat × Nat) :=
  let js := ((b2jf (a.getD i dCh)).takeWhile (fun j => decide (j < bhi))).filter
    (fun j => decide (blo ≤ j))
  js.foldl (flmStep st.1 i) ((fun _ => 0), st.2)

/-- The full dynamic program of `find_longest_match` (before the
    extension loops), started from `besti, bestj, bestsize = alo, blo, 0`. -/
def flmLoop (b2jf : Char → List Nat) (a : List Char) (alo ahi blo bhi : Nat) :
    (Nat → Nat) × (Nat × Nat × Nat) :=
  (List.range' alo (ahi - alo)).foldl (flmRow b2jf a blo bhi) ((fun _ => 0), (alo, blo, 0))

/-- First extension loop: grow the block leftwards while the preceding
    characters match (`isbjunk` is constantly false: `bjunk = ∅`).
    The recursion is structural in `besti`, which the loop decrements;
    at `besti = 0` the guard `alo < besti` is false, exactly as in the
    loop. -/
def extendLower (a b : List Char) (alo blo : Nat) : Nat → Nat → Nat → Nat × Nat × Nat
  | 0, j, k => (0, j, k)
  | i + 1, j, k =>
    if alo < i + 1 ∧ blo < j ∧ a.getD i dCh = b.getD (j - 1) dCh then
      extendLower a b alo blo i (j - 1) (k + 1)
    else (i + 1, j, k)

/-- Second extension loop (`while besti+bestsize < ahi and ...`), with
    the loop variant `ahi - (besti + bestsize)` made explicit: it is
    exactly zero when the guard's first conjunct fails, so the fueled
    recursion performs precisely the iterations of the while loop. -/
def extendUpperF (a b : List Char) (ahi bhi : Nat) : Nat → Nat → Nat → Nat → Nat × Nat × Nat
  | 0, i, j, k => (i, j, k)
  | fuel + 1, i, j, k =>
    if i + k < ahi ∧ j + k < bhi ∧ a.getD (i + k) dCh = b.getD (j + k) dCh then
      extendUpperF a b ahi bhi fuel i j (k + 1)
    else (i, j, k)

def extendUpper (a b : List Char) (ahi bhi i j k : Nat) : Nat × Nat × Nat :=
  extendUpperF a b ahi bhi (ahi - (i + k)) i j k

/-- `find_longest_match(alo, ahi, blo, bhi)`.  The third and fourth while
    loops of the Python source extend over junk characters; with
    `isjunk=None` the junk set is empty, so they never run. -/
def findLongestMatch (a b : List Char) (alo ahi blo bhi : Nat) : Nat × Nat × Nat :=
  let best := (flmLoop (b2j b) a alo ahi blo bhi).2
  let lo := extendLower a b alo blo best.1 best.2.1 best.2.2
  extendUpper a b ahi bhi lo.1 lo.2.1 lo.2.2

/-- The queue-driven recursion of `get_matching_blocks`, fuel-indexed.
    The queue order does not affect which windows are examined, so the
    collected blocks (up to order) and their total size match Python's.
    Each recursive window is strictly smaller, so any fuel above
    `(ahi - alo) + (bhi - blo)` computes the fixpoint; the wrapper below
    supplies ample fuel. -/
def matchedBlocksF (a b : List Char) : Nat → Nat → Nat → Nat → Nat → List (Nat × Nat × Nat)
  | 0, _, _, _, _ => []
  | fuel + 1, alo, ahi, blo, bhi =>
    let r := findLongestMatch a b alo ahi blo bhi
    if r.2.2 = 0 then []
    else
      (if alo < r.1 ∧ blo < r.2.1 then matchedBlocksF a b fuel alo r.1 blo r.2.1 else []) ++
        r :: (if r.1 + r.2.2 < ahi ∧ r.2.1 + r.2.2 < bhi then
          matchedBlocksF a b fuel (r.1 + r.2.2) ahi (r.2.1 + r.2.2) bhi else [])

/-- All matching blocks of the two full sequences.  `get_matching_blocks`
    additionally sorts the blocks and merges adjacent ones, which changes
    neither the matched positions nor the total matched size used by
    `ratio`. -/
def matchedBlocks (a b : List Char) : List (Nat × Nat × Nat) :=
  matchedBlocksF a b (a.length + b.length + 1) 0 a.length 0 b.length

/-- `sum(size for ... in self.get_matching_blocks())`. -/
def matchedTotal (a b : List Char) : Nat :=
  ((matchedBlocks a b).map (fun r => r.2.2)).sum

/-- `_calculate_ratio(matches, length)`: `2.0 * matches / length`, and
    `1.0` when `length` is zero.  The quotient is formed with `mkRat`
    (the same rational number as `2 * m / t`, see `calcRatio_eq_div`). -/
def calcRatio (m t : Nat) : ℚ :=
  if t = 0 then 1 else mkRat (2 * m) t

/-- `SequenceMatcher.ratio()` for `a = seq1`, `b = seq2`. -/
def smRatio (a b : List Char) : ℚ :=
  calcRatio (matchedTotal a b) (a.length + b.length)

/-- The loop body of `quick_ratio`: `avail` maps a character to the
    remaining budget (an `Int`, since Python lets it go negative),
    `none` standing for "not yet seen", in which case `fullbcount`
    (that is, `b.count`) is consulted. -/
def quickLoop (b : List Char) : List Char → (Char → Option Int) → Nat → Nat
  | [], _, m => m
  | c :: rest, avail, m =>
    let numb : Int := match avail c with | some v => v | none => (b.count c : Int)
    quickLoop b rest (fun d => if d = c then some (numb - 1) else avail d)
      (if 0 < numb then m + 1 else m)

/-- The `matches` total of `quick_ratio` over all of `a`. -/
def quickMatches (a b : List Char) : Nat :=
  quickLoop b a (fun _ => none) 0

/-- `SequenceMatcher.quick_ratio()`. -/
def quickRatio (a b : List Char) : ℚ :=
  calcRatio (quickMatches a b) (a.length + b.length)

/-- `SequenceMatcher.real_quick_ratio()`. -/
def realQuickRatio (a b : List Char) : ℚ :=
  calcRatio (min a.length b.length) (a.length + b.length)

/-- Python `<` on strings: lexicographic comparison of code points. -/
def pyLtChars : List Char → List Char → Bool
  | [], [] => false
  | [], _ :: _ => true
  | _ :: _, [] => false
  | c :: cs, d :: ds => if c < d then true else if d < c then false else pyLtChars cs ds

/-- Python `<` on the `(score, string)` tuples that `get_close_matches`
    feeds to `heapq.nlargest`. -/
def tupLt (p q : ℚ × String) : Bool :=
  decide (p.1 < q.1) || (decide (p.1 = q.1) && pyLtChars p.2.data q.2.data)

/-- `heapq.nlargest(1, l)` via `max`: scan left to right, replacing the
    current best exactly when the new tuple compares strictly greater. -/
def nlargest1 (l : List (ℚ × String)) : Option (ℚ × String) :=
  l.foldl (fun acc p =>
    match acc with
    | none => some p
    | some q => if tupLt q p then some p else some q) none

/-- The `result` list that `get_close_matches` accumulates: for each
    candidate `x` that passes `real_quick_ratio() >= cutoff and
    quick_ratio() >= cutoff and ratio() >= cutoff`, the pair
    `(s.ratio(), x)`. -/
def difflibCands (word : String) (cutoff : ℚ) (ws : List String) : List (ℚ × String) :=
  ws.filterMap (fun x =>
    if cutoff ≤ realQuickRatio x.data word.data ∧ cutoff ≤ quickRatio x.data word.data ∧
        cutoff ≤ smRatio x.data word.data then
      some (smRatio x.data word.data, x)
    else none)

/-- `difflib.get_close_matches(word, ws, n=1, cutoff)`: validate the
    cutoff (`n = 1 > 0` passes the first validation), filter by the three
    ratio tests, then keep the single largest `(score, x)` tuple.
    A failed validation is a raised `ValueError`. -/
def getCloseMatches1 (word : String) (ws : List String) (cutoff : ℚ) :
    Except String (List String) :=
  if ¬ (0 ≤ cutoff ∧ cutoff ≤ 1) then
    .error "ValueError: cutoff must be in [0.0, 1.0]"
  else
    .ok (match nlargest1 (difflibCands word cutoff ws) with
      | none => []
      | some p => [p.2])

/-! ## Levenshtein.ratio model (third-party C extension) -/

/-- Inner walk of one row of the longest-common-subsequence table:
    `prev` is the previous row from column `j` on, `left` the entry just
    computed in the current row. -/
def lcsRowGo (x : Char) : List Char → List Nat → Nat → List Nat
  | [], _, _ => []
  | c :: cs, prev, left =>
    let v := if x = c then prev.headD 0 + 1 else max (prev.tail.headD 0) left
    v :: lcsRowGo x cs prev.tail v

/-- Length of a longest common subsequence of `a` and `b`, by the
    standard row-by-row dynamic program. -/
def lcsLen (a b : List Char) : Nat :=
  (a.foldl (fun prev x => 0 :: lcsRowGo x b prev 0) (List.replicate (b.length + 1) 0)).getLastD 0

/-- Modelled from the spec: the third-party `Levenshtein.ratio(s1, s2)`
    (imported by corrector.py, not part of this repository) returns the
    normalized indel similarity `(lensum - dist) / lensum` where `dist`
    is the edit distance with substitutions weighted 2; that distance
    equals `lensum - 2 * lcs`, and the ratio of two empty strings is 1. -/
def levRatio (a b : List Char) : ℚ :=
  if a.length + b.length = 0 then 1
  else
    mkRat ((a.length + b.length : Int) - ((a.length + b.length) - 2 * lcsLen a b : Nat))
      (a.length + b.length)

/-- `levenshtein(word, word_list, n=1, cutoff)` from corrector.py.  The
    comprehension's guard `len(matches) <= n` reads the *outer* `matches`
    list, which is still empty while the comprehension runs, so the guard
    is `0 <= n`, identically true; `matches[0]` is then the whole
    comprehension, i.e. every domain whose ratio strictly exceeds the
    cutoff, in word-list order. -/
def levenshtein (word : String) (wordList : List String) (n : Nat) (cutoff : ℚ) : List String :=
  wordList.filter (fun domain =>
    decide (cutoff < levRatio word.data domain.data) &&
      decide (List.length ([] : List (List String)) ≤ n))

/-! ## spelling (the Norvig-style variant) -/

/-- `Counter(word_list)`: first-occurrence order, multiplicities. -/
def counterOf (l : List String) : List (String × Nat) :=
  l.dedup.map (fun w => (w, l.count w))

/-- The nested `probability(word, WORDS)` helper (two parameters — the
    root cause of the TypeError below). -/
def probability (word : String) (WORDS : List (String × Nat)) : ℚ :=
  ((WORDS.lookup word).getD 0 : ℚ) / ((WORDS.map (fun p => p.2)).sum : ℚ)

/-- `known(words)` as written: `set(w for w in words if w in words)` —
    the membership test is against `words` itself, not the frequency
    table, so every element passes.  Python's set drops duplicates; the
    hash iteration order is immaterial here because `correction` raises
    on the first element it draws. -/
def known (words : List String) : List String :=
  (words.filter (fun w => words.contains w)).dedup

def letters : List Char := "abcdefghijklmnopqrstuvwxyz".data

/-- `splits` of `edits1`, over the character list. -/
def splitsOf (w : List Char) : List (List Char × List Char) :=
  (List.range (w.length + 1)).map (fun i => (w.take i, w.drop i))

/-- `edits1(word)`: deletes, adjacent transposes, lowercase replaces and
    inserts, as a duplicate-free set. -/
def edits1 (word : String) : List String :=
  let sp := splitsOf word.data
  let deletes := sp.filterMap (fun p =>
    match p.2 with
    | [] => none
    | _ :: r => some (String.mk (p.1 ++ r)))
  let transposes := sp.filterMap (fun p =>
    match p.2 with
    | r0 :: r1 :: rest => some (String.mk (p.1 ++ r1 :: r0 :: rest))
    | _ => none)
  let replaces := sp.flatMap (fun p =>
    match p.2 with
    | [] => []
    | _ :: r => letters.map (fun c => String.mk (p.1 ++ c :: r)))
  let inserts := sp.flatMap (fun p => letters.map (fun c => String.mk (p.1 ++ c :: p.2)))
  (deletes ++ transposes ++ replaces ++ inserts).dedup

/-- `edits2(word)` (a generator in the source; never forced, because
    `candidates` already stops at `known([word])`). -/
def edits2 (word : String) : List String :=
  (edits1 word).flatMap edits1

/-- `candidates(word)`: the `or`-chain over Python truthiness.  Because
    `known` is reflexive, `known([word]) = {word}` is always truthy and
    the chain stops at its first link. -/
def candidates (word : String) : List String :=
  let k1 := known [word]
  if ¬ k1.isEmpty then k1
  else
    let k2 := known (edits1 word)
    if ¬ k2.isEmpty then k2
    else
      let k3 := known (edits2 word)
      if ¬ k3.isEmpty then k3 else [word]

/-- `correction(word) = max(candidates(word), key=probability)`.
    CPython's `max` applies `key` to every element, the first included;
    `probability` requires two positional arguments, so the very first
    key call raises `TypeError` whenever the iterable is non-empty (and
    `max` of an empty sequence raises `ValueError`). -/
def correction (word : String) : Except String String :=
  match candidates word with
  | [] => .error "ValueError: max() arg is an empty sequence"
  | _ :: _ => .error "TypeError: probability() missing 1 required positional argument: WORDS"

/-- `spelling(word, word_list)`: builds `WORDS = Counter(word_list)`
    (which cannot fail) and returns `correction(word)`; the nested helper
    definitions themselves raise nothing at definition time. -/
def spelling (word : String) (wordList : List String) : Except String String :=
  let _WORDS := counterOf wordList
  correction word

/-! ## suggest -/

/-- The body of `suggest` after the working word list has been resolved. -/
def suggestWith (word : String) (cutoff : ℚ) (wordList : List String) (algo : String) :
    Except String String :=
  match LOOKUP_TABLE.lookup word with
  | some v => .ok v
  | none =>
    if algo = "levenshtein" then
      let guess := levenshtein word wordList 1 cutoff
      .ok (match guess with | [] => word | g :: _ => g)
    else if algo = "spellr" then
      match spelling word wordList with
      | .error e => .error e
      | .ok s => .ok (if s.length > 0 then String.mk [s.data.headD dCh] else word)
    else
      match getCloseMatches1 word wordList cutoff with
      | .error e => .error e
      | .ok guess => .ok (match guess with | [] => word | g :: _ => g)

/-- `suggest(word, cutoff=0.77, override=None, algo='difflib')`.
    `word_list = override if override else MOST_COMMON_DOMAINS` tests
    Python truthiness: both `None` and an empty override fall back to the
    default list.  The word list is resolved before the lookup-table
    check, exactly as in the source (no observable effect: both steps are
    pure).  In the `spellr` branch `suggest`, had `spelling` returned a
    string `s`, would evaluate `s and len(s) > 0` and return `s[0]`, the
    first character; the branch is embedded although `spelling` always
    raises first. -/
def suggest (word : String) (cutoff : ℚ) (override : Option (List String)) (algo : String) :
    Except String String :=
  let wordList := match override with
    | some l => if l.isEmpty then MOST_COMMON_DOMAINS else l
    | none => MOST_COMMON_DOMAINS
  suggestWith word cutoff wordList algo

/-- The reference-list entries whose Ratcliff/Obershelp similarity to
    `word` reaches the cutoff (spec-side description of the difflib
    filter; the lemmas below show the two quick pre-tests never reject a
    candidate the full ratio accepts). -/
def qualList (word : String) (cutoff : ℚ) (ws : List String) : List String :=
  ws.filter (fun x => decide (cutoff ≤ smRatio x.data word.data))

/-! ## Specification predicates and derived views used by the proofs -/

/-- The slice `l[lo:hi]`. -/
def sl (l : List Char) (lo hi : Nat) : List Char :=
  (l.drop lo).take (hi - lo)

/-- The segment of `a` covered by a block `(i, _, k)`. -/
def blockSlice (a : List Char) (i k : Nat) : List Char :=
  (a.drop i).take k

/-- The characters of `a` matched by the blocks of the full comparison,
    in block order. -/
def matchedChars (a b : List Char) : List Char :=
  ((matchedBlocks a b).map (fun r => blockSlice a r.1 r.2.2)).flatten

/-- Soundness predicate for a block `(i, j, k)` produced inside the
    window `[alo, ahi) × [blo, bhi)`: it sits inside the window and its
    two sides spell the same characters; a zero-size block is the
    untouched initial `(alo, blo, 0)`. -/
def GoodBlock (a b : List Char) (alo ahi blo bhi : Nat) (r : Nat × Nat × Nat) : Prop :=
  alo ≤ r.1 ∧ blo ≤ r.2.1 ∧ (r.2.2 = 0 → r.1 = alo ∧ r.2.1 = blo) ∧
    (r.2.2 ≠ 0 → r.1 + r.2.2 ≤ ahi ∧ r.2.1 + r.2.2 ≤ bhi ∧
      ∀ t, t < r.2.2 → a.getD (r.1 + t) dCh = b.getD (r.2.1 + t) dCh)

/-- Soundness predicate for the `j2len` map entering row `i`: a nonzero
    entry `m j` is the length of a genuine matching run that ends at
    `(i - 1, j)` and stays inside the window. -/
def PrevMap (a b : List Char) (alo blo bhi i : Nat) (m : Nat → Nat) : Prop :=
  ∀ j, m j ≠ 0 → 1 ≤ i ∧ blo ≤ j ∧ j < bhi ∧ alo + m j ≤ i ∧ blo + m j ≤ j + 1 ∧
    ∀ t, t < m j → a.getD (i - 1 - t) dCh = b.getD (j - t) dCh

/-! ## Generic list helpers -/

theorem mem_takeWhile_and {α : Type} {p : α → Bool} :
    ∀ {l : List α} {x : α}, x ∈ l.takeWhile p → x ∈ l ∧ p x = true := by
  intro l
  induction l with
  | nil => intro x h; cases h
  | cons y ys ih =>
    intro x h
    by_cases hy : p y = true
    · rw [List.takeWhile_cons, if_pos hy] at h
      rcases List.mem_cons.mp h with h | h
      · exact ⟨h ▸ List.mem_cons_self y ys, h ▸ hy⟩
      · rcases ih h with ⟨h1, h2⟩
        exact ⟨List.mem_cons_of_mem y h1, h2⟩
    · rw [List.takeWhile_cons, if_neg hy] at h
      cases h

theorem foldl_inv {α β : Type} {P : β → Prop} {f : β → α → β} :
    ∀ (l : List α) (init : β), P init → (∀ st x, x ∈ l → P st → P (f st x)) →
      P (l.foldl f init) := by
  intro l
  induction l with
  | nil => intro init h _; exact h
  | cons y ys ih =>
    intro init h hstep
    exact ih (f init y) (hstep init y (List.mem_cons_self y ys) h)
      (fun st x hx hst => hstep st x (List.mem_cons_of_mem y hx) hst)

theorem foldl_range'_inv {β : Type} {P : Nat → β → Prop} {f : β → Nat → β} :
    ∀ (n s : Nat) (init : β), P s init →
      (∀ i st, s ≤ i → i < s + n → P i st → P (i + 1) (f st i)) →
      P (s + n) ((List.range' s n).foldl f init) := by
  intro n
  induction n with
  | zero => intro s init h _; exact h
  | succ m ih =>
    intro s init h hstep
    rw [List.range'_succ]
    have h1 : P (s + 1) (f init s) :=
      hstep s init (Nat.le_refl s) (by omega) h
    have h2 := ih (s + 1) (f init s) h1
      (fun i st hi hilt hp => hstep i st (by omega) (by omega) hp)
    have : s + 1 + m = s + (m + 1) := by omega
    rwa [this] at h2

/-! ## b2j soundness -/

theorem b2jBase_sound {b : List Char} {c : Char} {j : Nat} (h : j ∈ b2jBase b c) :
    j < b.length ∧ b.getD j dCh = c := by
  unfold b2jBase at h
  rcases List.mem_filter.mp h with ⟨h1, h2⟩
  exact ⟨List.mem_range.mp h1, by simpa using h2⟩

theorem b2jBase_complete {b : List Char} {c : Char} {j : Nat}
    (hj : j < b.length) (hc : b.getD j dCh = c) : j ∈ b2jBase b c := by
  unfold b2jBase
  exact List.mem_filter.mpr ⟨List.mem_range.mpr hj, by simpa using hc⟩

theorem b2j_sound {b : List Char} {c : Char} {j : Nat} (h : j ∈ b2j b c) :
    j < b.length ∧ b.getD j dCh = c := by
  unfold b2j at h
  split at h
  · cases h
  · exact b2jBase_sound h

theorem b2j_pairwise (b : List Char) (c : Char) : (b2j b c).Pairwise (· < ·) := by
  unfold b2j
  split
  · exact List.Pairwise.nil
  · exact List.Pairwise.filter _ (List.pairwise_lt_range b.length)

theorem bPopular_nil {b : List Char} (h : b.length < 200) : bPopular b = [] := by
  unfold bPopular
  rw [if_neg (by omega)]

/-! ## The longest-match invariant -/

theorem goodBlock_intro {a b : List Char} {alo ahi blo bhi i j k : Nat}
    (h1 : alo ≤ i) (h2 : blo ≤ j) (h3 : k = 0 → i = alo ∧ j = blo)
    (h4 : k ≠ 0 → i + k ≤ ahi ∧ j + k ≤ bhi ∧
      ∀ t, t < k → a.getD (i + t) dCh = b.getD (j + t) dCh) :
    GoodBlock a b alo ahi blo bhi (i, j, k) :=
  ⟨h1, h2, h3, h4⟩

theorem goodBlock_elim {a b : List Char} {alo ahi blo bhi i j k : Nat}
    (h : GoodBlock a b alo ahi blo bhi (i, j, k)) :
    alo ≤ i ∧ blo ≤ j ∧ (k = 0 → i = alo ∧ j = blo) ∧
      (k ≠ 0 → i + k ≤ ahi ∧ j + k ≤ bhi ∧
        ∀ t, t < k → a.getD (i + t) dCh = b.getD (j + t) dCh) :=
  h

theorem flmStep_good {a b : List Char} {alo ahi blo bhi i : Nat} {old : Nat → Nat}
    {st : (Nat → Nat) × (Nat × Nat × Nat)} {j : Nat}
    (hold : PrevMap a b alo blo bhi i old)
    (hmap : PrevMap a b alo blo bhi (i + 1) st.1)
    (hbest : GoodBlock a b alo ahi blo bhi st.2)
    (hjlo : blo ≤ j) (hjhi : j < bhi) (hchar : b.getD j dCh = a.getD i dCh)
    (hialo : alo ≤ i) (hiahi : i < ahi) :
    PrevMap a b alo blo bhi (i + 1) (flmStep old i st j).1 ∧
      GoodBlock a b alo ahi blo bhi (flmStep old i st j).2 := by
  have hcore : ∀ v : Nat, v = 0 ∨ (j ≠ 0 ∧ v = old (j - 1) ∧ v ≠ 0) →
      alo + (v + 1) ≤ i + 1 ∧ blo + (v + 1) ≤ j + 1 ∧
        ∀ t, t < v + 1 → a.getD (i - t) dCh = b.getD (j - t) dCh := by
    intro v hv
    rcases hv with hv0 | ⟨hj0, hvold, hvne⟩
    · subst hv0
      refine ⟨by omega, by omega, ?_⟩
      intro t ht
      have ht0 : t = 0 := by omega
      subst ht0
      simpa using hchar.symm
    · rcases hold (j - 1) (by rw [← hvold]; exact hvne) with ⟨hi1, hb1, _, hav, hbv, hrun1⟩
      rw [← hvold] at hav hbv hrun1
      refine ⟨by omega, by omega, ?_⟩
      intro t ht
      rcases Nat.eq_zero_or_pos t with ht0 | htpos
      · subst ht0; simpa using hchar.symm
      · have e1 : i - t = i - 1 - (t - 1) := by omega
        have e2 : j - t = (j - 1) - (t - 1) := by omega
        rw [e1, e2]
        exact hrun1 (t - 1) (by omega)
  have hsel : (if j = 0 then 0 else old (j - 1)) = 0 ∨
      (j ≠ 0 ∧ (if j = 0 then 0 else old (j - 1)) = old (j - 1) ∧
        (if j = 0 then 0 else old (j - 1)) ≠ 0) := by
    by_cases hj0 : j = 0
    · left; rw [if_pos hj0]
    · by_cases hv : old (j - 1) = 0
      · left; rw [if_neg hj0]; exact hv
      · right; exact ⟨hj0, if_neg hj0, by rw [if_neg hj0]; exact hv⟩
  have hrun := hcore _ hsel
  rcases hrun with ⟨hrA, hrB, hrC⟩
  constructor
  · -- the updated row map
    intro q hq
    have hval : (flmStep old i st j).1 q =
        if q = j then (if j = 0 then 0 else old (j - 1)) + 1 else st.1 q := rfl
    rw [hval] at hq ⊢
    by_cases hqj : q = j
    · rw [if_pos hqj] at hq ⊢
      subst hqj
      refine ⟨by omega, hjlo, hjhi, by omega, by omega, ?_⟩
      intro t ht
      have e : (i + 1) - 1 - t = i - t := by omega
      rw [e]
      exact hrC t ht
    · rw [if_neg hqj] at hq ⊢
      exact hmap q hq
  · -- the updated best block
    show GoodBlock a b alo ahi blo bhi
      (if st.2.2.2 < (if j = 0 then 0 else old (j - 1)) + 1 then
        (i + 1 - ((if j = 0 then 0 else old (j - 1)) + 1),
         j + 1 - ((if j = 0 then 0 else old (j - 1)) + 1),
         (if j = 0 then 0 else old (j - 1)) + 1)
      else st.2)
    by_cases hup : st.2.2.2 < (if j = 0 then 0 else old (j - 1)) + 1
    · rw [if_pos hup]
      refine goodBlock_intro (by omega) (by omega) (by omega) ?_
      intro _
      refine ⟨by omega, by omega, ?_⟩
      intro t ht
      have e1 : i + 1 - ((if j = 0 then 0 else old (j - 1)) + 1) + t =
          i - ((if j = 0 then 0 else old (j - 1)) + 1 - 1 - t) := by omega
      have e2 : j + 1 - ((if j = 0 then 0 else old (j - 1)) + 1) + t =
          j - ((if j = 0 then 0 else old (j - 1)) + 1 - 1 - t) := by omega
      rw [e1, e2]
      exact hrC _ (by omega)
    · rw [if_neg hup]
      exact hbest

theorem flmRow_good {a b : List Char} {alo ahi blo bhi i : Nat}
    {st : (Nat → Nat) × (Nat × Nat × Nat)}
    (hmap : PrevMap a b alo blo bhi i st.1)
    (hbest : GoodBlock a b alo ahi blo bhi st.2)
    (hialo : alo ≤ i) (hiahi : i < ahi) :
    PrevMap a b alo blo bhi (i + 1) (flmRow (b2j b) a blo bhi st i).1 ∧
      GoodBlock a b alo ahi blo bhi (flmRow (b2j b) a blo bhi st i).2 := by
  have h := foldl_inv
    (P := fun st2 : (Nat → Nat) × (Nat × Nat × Nat) =>
      PrevMap a b alo blo bhi (i + 1) st2.1 ∧ GoodBlock a b alo ahi blo bhi st2.2)
    (f := flmStep st.1 i)
    (((b2j b (a.getD i dCh)).takeWhile (fun j => decide (j < bhi))).filter
      (fun j => decide (blo ≤ j)))
    ((fun _ => 0), st.2)
    ⟨fun q hq => absurd rfl hq, hbest⟩
    (fun st2 j hj hst2 => by
      have hj1 := List.mem_filter.mp hj
      have hj2 := mem_takeWhile_and hj1.1
      have hjlo : blo ≤ j := by simpa using hj1.2
      have hjhi : j < bhi := by simpa using hj2.2
      have hjb := b2j_sound hj2.1
      exact flmStep_good hmap hst2.1 hst2.2 hjlo hjhi hjb.2 hialo hiahi)
  exact h

theorem flmLoop_good (a b : List Char) (alo ahi blo bhi : Nat) :
    GoodBlock a b alo ahi blo bhi (flmLoop (b2j b) a alo ahi blo bhi).2 := by
  unfold flmLoop
  have h := foldl_range'_inv (P := fun i st =>
      PrevMap a b alo blo bhi i st.1 ∧ GoodBlock a b alo ahi blo bhi st.2)
    (f := flmRow (b2j b) a blo bhi) (ahi - alo) alo ((fun _ => 0), (alo, blo, 0))
    ⟨fun q hq => absurd rfl hq,
     ⟨Nat.le_refl _, Nat.le_refl _, fun _ => ⟨rfl, rfl⟩, fun h0 => absurd rfl h0⟩⟩
    (fun i stx hi hilt hp => flmRow_good hp.1 hp.2 hi (by omega))
  exact h.2

theorem extendLower_good {a b : List Char} {alo ahi blo bhi : Nat} :
    ∀ {i j k : Nat}, GoodBlock a b alo ahi blo bhi (i, j, k) →
      GoodBlock a b alo ahi blo bhi (extendLower a b alo blo i j k) := by
  intro i
  induction i with
  | zero => intro j k h; exact h
  | succ i ih =>
    intro j k h
    rw [extendLower]
    split
    · next hcond =>
      rcases hcond with ⟨hai, hbj, hch⟩
      rcases goodBlock_elim h with ⟨h1, h2, h3, h4⟩
      apply ih
      rcases Nat.eq_zero_or_pos k with hk0 | hkpos
      · exfalso
        rcases h3 hk0 with ⟨_, hjb⟩
        omega
      · rcases h4 (by omega) with ⟨hb1, hb2, hb3⟩
        refine goodBlock_intro (by omega) (by omega) (by omega) ?_
        intro _
        refine ⟨by omega, by omega, ?_⟩
        intro t ht
        rcases Nat.eq_zero_or_pos t with ht0 | htpos
        · subst ht0; simpa using hch
        · have e1 : i + t = (i + 1) + (t - 1) := by omega
          have e2 : j - 1 + t = j + (t - 1) := by omega
          rw [e1, e2]
          exact hb3 (t - 1) (by omega)
    · exact h

theorem extendUpperF_good {a b : List Char} {alo ahi blo bhi : Nat} :
    ∀ {fuel i j k : Nat}, GoodBlock a b alo ahi blo bhi (i, j, k) →
      GoodBlock a b alo ahi blo bhi (extendUpperF a b ahi bhi fuel i j k) := by
  intro fuel
  induction fuel with
  | zero => intro i j k h; exact h
  | succ f ih =>
    intro i j k h
    rw [extendUpperF]
    split
    · next hcond =>
      rcases hcond with ⟨hai, hbj, hch⟩
      rcases goodBlock_elim h with ⟨h1, h2, h3, h4⟩
      apply ih
      refine goodBlock_intro h1 h2 (by omega) ?_
      intro _
      refine ⟨by omega, by omega, ?_⟩
      intro t ht
      by_cases htk : t = k
      · subst htk; exact hch
      · rcases Nat.eq_zero_or_pos k with hk0 | hkpos
        · omega
        · exact (h4 (by omega)).2.2 t (by omega)
    · exact h

theorem findLongestMatch_good (a b : List Char) (alo ahi blo bhi : Nat) :
    GoodBlock a b alo ahi blo bhi (findLongestMatch a b alo ahi blo bhi) := by
  unfold findLongestMatch extendUpper
  exact extendUpperF_good (extendLower_good (flmLoop_good a b alo ahi blo bhi))

/-! ## Slices and the matched-block decomposition -/

theorem sl_split {l : List Char} {lo m hi : Nat} (h1 : lo ≤ m) (h2 : m ≤ hi) :
    sl l lo hi = sl l lo m ++ sl l m hi := by
  unfold sl
  have e : hi - lo = (m - lo) + (hi - m) := by omega
  have e2 : (l.drop lo).drop (m - lo) = l.drop m := by
    rw [List.drop_drop]
    congr 1
    omega
  rw [e, List.take_add, e2]

theorem blockSlice_sl (a : List Char) (i k : Nat) : blockSlice a i k = sl a i (i + k) := by
  unfold blockSlice sl
  congr 1
  omega

theorem sl_full (l : List Char) : sl l 0 l.length = l := by
  unfold sl
  simp

theorem blockSlice_length {a : List Char} {i k : Nat} (h : i + k ≤ a.length) :
    (blockSlice a i k).length = k := by
  unfold blockSlice
  rw [List.length_take, List.length_drop]
  omega

theorem blockSlice_getD {a : List Char} {i k t : Nat}
    (hk : i + k ≤ a.length) (ht : t < k) :
    (blockSlice a i k).getD t dCh = a.getD (i + t) dCh := by
  rw [List.getD_eq_getElem (blockSlice a i k) dCh (by rw [blockSlice_length hk]; exact ht),
    List.getD_eq_getElem a dCh (by omega)]
  unfold blockSlice
  rw [List.getElem_take, List.getElem_drop]

theorem blockSlice_eq_right {a b : List Char} {i j k : Nat}
    (ha : i + k ≤ a.length) (hb : j + k ≤ b.length)
    (hch : ∀ t, t < k → a.getD (i + t) dCh = b.getD (j + t) dCh) :
    blockSlice a i k = blockSlice b j k := by
  apply List.ext_getElem
  · rw [blockSlice_length ha, blockSlice_length hb]
  · intro t h1 h2
    have ht : t < k := by
      rw [blockSlice_length ha] at h1
      exact h1
    have g1 := List.getD_eq_getElem (blockSlice a i k) dCh h1
    have g2 := List.getD_eq_getElem (blockSlice b j k) dCh h2
    rw [← g1, ← g2, blockSlice_getD ha ht, blockSlice_getD hb ht]
    exact hch t ht

theorem matchedBlocksF_good (a b : List Char) :
    ∀ (fuel alo ahi blo bhi : Nat), (ahi - alo) + (bhi - blo) < fuel →
      ahi ≤ a.length → bhi ≤ b.length →
      (List.Sublist ((matchedBlocksF a b fuel alo ahi blo bhi).map
          (fun r => blockSlice a r.1 r.2.2)).flatten (sl a alo ahi)) ∧
      (List.Sublist ((matchedBlocksF a b fuel alo ahi blo bhi).map
          (fun r => blockSlice a r.1 r.2.2)).flatten (sl b blo bhi)) ∧
      ((matchedBlocksF a b fuel alo ahi blo bhi).map (fun r => r.2.2)).sum =
        (((matchedBlocksF a b fuel alo ahi blo bhi).map
          (fun r => blockSlice a r.1 r.2.2)).flatten).length := by
  intro fuel
  induction fuel with
  | zero => intro alo ahi blo bhi h; omega
  | succ f ih =>
    intro alo ahi blo bhi hfuel ha hb
    obtain ⟨⟨i, j, k⟩, hr⟩ : ∃ r, findLongestMatch a b alo ahi blo bhi = r := ⟨_, rfl⟩
    have hgood := findLongestMatch_good a b alo ahi blo bhi
    rw [hr] at hgood
    rcases goodBlock_elim hgood with ⟨hg1, hg2, hg3, hg4⟩
    rw [matchedBlocksF]
    simp only [hr]
    by_cases hk : k = 0
    · rw [if_pos hk]
      refine ⟨List.nil_sublist _, List.nil_sublist _, by simp⟩
    · rw [if_neg hk]
      rcases hg4 hk with ⟨hik, hjk, hch⟩
      have hL : (List.Sublist ((if alo < i ∧ blo < j then matchedBlocksF a b f alo i blo j else []).map
            (fun r => blockSlice a r.1 r.2.2)).flatten (sl a alo i)) ∧
          (List.Sublist ((if alo < i ∧ blo < j then matchedBlocksF a b f alo i blo j else []).map
            (fun r => blockSlice a r.1 r.2.2)).flatten (sl b blo j)) ∧
          ((if alo < i ∧ blo < j then matchedBlocksF a b f alo i blo j else []).map
            (fun r => r.2.2)).sum =
            (((if alo < i ∧ blo < j then matchedBlocksF a b f alo i blo j else []).map
              (fun r => blockSlice a r.1 r.2.2)).flatten).length := by
        split
        · exact ih alo i blo j (by omega) (by omega) (by omega)
        · exact ⟨List.nil_sublist _, List.nil_sublist _, by simp⟩
      have hR : (List.Sublist ((if i + k < ahi ∧ j + k < bhi then
              matchedBlocksF a b f (i + k) ahi (j + k) bhi else []).map
            (fun r => blockSlice a r.1 r.2.2)).flatten (sl a (i + k) ahi)) ∧
          (List.Sublist ((if i + k < ahi ∧ j + k < bhi then
              matchedBlocksF a b f (i + k) ahi (j + k) bhi else []).map
            (fun r => blockSlice a r.1 r.2.2)).flatten (sl b (j + k) bhi)) ∧
          ((if i + k < ahi ∧ j + k < bhi then
              matchedBlocksF a b f (i + k) ahi (j + k) bhi else []).map
            (fun r => r.2.2)).sum =
            (((if i + k < ahi ∧ j + k < bhi then
                matchedBlocksF a b f (i + k) ahi (j + k) bhi else []).map
              (fun r => blockSlice a r.1 r.2.2)).flatten).length := by
        split
        · exact ih (i + k) ahi (j + k) bhi (by omega) ha hb
        · exact ⟨List.nil_sublist _, List.nil_sublist _, by simp⟩
      have hmid : blockSlice a i k = blockSlice b j k :=
        blockSlice_eq_right (by omega) (by omega) hch
      have hmidlen : (blockSlice a i k).length = k := blockSlice_length (by omega)
      refine ⟨?_, ?_, ?_⟩
      · simp only [List.map_append, List.map_cons, List.flatten_append, List.flatten_cons]
        rw [@sl_split a alo i ahi hg1 (by omega),
          @sl_split a i (i + k) ahi (by omega) (by omega),
          ← blockSlice_sl]
        exact hL.1.append (List.Sublist.append (List.Sublist.refl _) hR.1)
      · simp only [List.map_append, List.map_cons, List.flatten_append, List.flatten_cons]
        rw [@sl_split b blo j bhi hg2 (by omega),
          @sl_split b j (j + k) bhi (by omega) (by omega),
          ← blockSlice_sl, hmid]
        exact hL.2.1.append (List.Sublist.append (List.Sublist.refl _) hR.2.1)
      · simp only [List.map_append, List.map_cons, List.flatten_append, List.flatten_cons,
          List.sum_append, List.sum_cons, List.length_append]
        rw [hL.2.2, hR.2.2, hmidlen]

theorem matchedChars_sublist_left (a b : List Char) : List.Sublist (matchedChars a b) a := by
  have h := (matchedBlocksF_good a b (a.length + b.length + 1) 0 a.length 0 b.length
    (by omega) (Nat.le_refl _) (Nat.le_refl _)).1
  rw [sl_full] at h
  exact h

theorem matchedChars_sublist_right (a b : List Char) : List.Sublist (matchedChars a b) b := by
  have h := (matchedBlocksF_good a b (a.length + b.length + 1) 0 a.length 0 b.length
    (by omega) (Nat.le_refl _) (Nat.le_refl _)).2.1
  rw [sl_full] at h
  exact h

theorem matchedTotal_eq_length (a b : List Char) :
    matchedTotal a b = (matchedChars a b).length :=
  (matchedBlocksF_good a b (a.length + b.length + 1) 0 a.length 0 b.length
    (by omega) (Nat.le_refl _) (Nat.le_refl _)).2.2

theorem matchedTotal_le_left (a b : List Char) : matchedTotal a b ≤ a.length := by
  rw [matchedTotal_eq_length]
  exact (matchedChars_sublist_left a b).length_le

theorem matchedTotal_le_right (a b : List Char) : matchedTotal a b ≤ b.length := by
  rw [matchedTotal_eq_length]
  exact (matchedChars_sublist_right a b).length_le

/-! ## Ratio arithmetic -/

theorem calcRatio_eq_div {t : Nat} (m : Nat) (ht : t ≠ 0) :
    calcRatio m t = 2 * (m : ℚ) / (t : ℚ) := by
  unfold calcRatio
  rw [if_neg ht, Rat.mkRat_eq_div]
  push_cast
  ring

theorem calcRatio_le_one {m t : Nat} (h : 2 * m ≤ t) : calcRatio m t ≤ 1 := by
  by_cases ht : t = 0
  · unfold calcRatio
    rw [if_pos ht]
  · rw [calcRatio_eq_div m ht]
    rw [div_le_one (by exact_mod_cast Nat.pos_of_ne_zero ht)]
    exact_mod_cast h

theorem calcRatio_eq_one {m t : Nat} (ht : t ≠ 0) (h : calcRatio m t = 1) : 2 * m = t := by
  rw [calcRatio_eq_div m ht] at h
  have h2 : (2 * m : ℚ) = t := by
    have htq : (t : ℚ) ≠ 0 := by exact_mod_cast ht
    field_simp at h
    exact_mod_cast h
  exact_mod_cast h2

theorem calcRatio_one {m t : Nat} (h : 2 * m = t) : calcRatio m t = 1 := by
  by_cases ht : t = 0
  · unfold calcRatio
    rw [if_pos ht]
  · rw [calcRatio_eq_div m ht]
    have htq : (t : ℚ) ≠ 0 := by exact_mod_cast ht
    rw [div_eq_one_iff_eq htq]
    exact_mod_cast h

theorem calcRatio_mono {m m' t : Nat} (h : m ≤ m') : calcRatio m t ≤ calcRatio m' t := by
  by_cases ht : t = 0
  · unfold calcRatio
    rw [if_pos ht, if_pos ht]
  · rw [calcRatio_eq_div m ht, calcRatio_eq_div m' ht]
    have htq : (0 : ℚ) ≤ t := by positivity
    apply div_le_div_of_nonneg_right ?_ htq
    have : (m : ℚ) ≤ m' := by exact_mod_cast h
    linarith

theorem smRatio_le_one (a b : List Char) : smRatio a b ≤ 1 := by
  apply calcRatio_le_one
  have h1 := matchedTotal_le_left a b
  have h2 := matchedTotal_le_right a b
  omega

theorem smRatio_eq_one {a b : List Char} (h : smRatio a b = 1) : a = b := by
  by_cases ht : a.length + b.length = 0
  · have ha : a = [] := List.length_eq_zero.mp (by omega)
    have hb : b = [] := List.length_eq_zero.mp (by omega)
    rw [ha, hb]
  · have h2 : 2 * matchedTotal a b = a.length + b.length := calcRatio_eq_one ht h
    have h1 := matchedTotal_le_left a b
    have h3 := matchedTotal_le_right a b
    have hlen := matchedTotal_eq_length a b
    have hea : matchedChars a b = a :=
      (matchedChars_sublist_left a b).eq_of_length (by omega)
    have heb : matchedChars a b = b :=
      (matchedChars_sublist_right a b).eq_of_length (by omega)
    rw [← hea, heb]

/-! ## quick_ratio: closed form and bounds -/

theorem sum_min_append_one (seen b : List Char) (c : Char) :
    Finset.sum (seen ++ [c]).toFinset
        (fun d => min ((seen ++ [c]).count d) (b.count d)) =
      Finset.sum seen.toFinset (fun d => min (seen.count d) (b.count d)) +
        (if seen.count c < b.count c then 1 else 0) := by
  classical
  have hcount_c : (seen ++ [c]).count c = seen.count c + 1 := by
    simp [List.count_append]
  have hcount_ne : ∀ d, d ≠ c → (seen ++ [c]).count d = seen.count d := by
    intro d hd
    simp [List.count_append, List.count_singleton, hd]
  by_cases hc : c ∈ seen.toFinset
  · have hset : (seen ++ [c]).toFinset = seen.toFinset := by
      rw [List.toFinset_append]
      simp only [List.toFinset_cons, List.toFinset_nil, insert_emptyc_eq]
      exact Finset.union_eq_left.mpr (by simpa using hc)
    rw [hset]
    rw [← Finset.add_sum_erase _ _ hc, ← Finset.add_sum_erase _ _ hc]
    have herase : Finset.sum (seen.toFinset.erase c)
        (fun d => min ((seen ++ [c]).count d) (b.count d)) =
        Finset.sum (seen.toFinset.erase c)
          (fun d => min (seen.count d) (b.count d)) := by
      apply Finset.sum_congr rfl
      intro d hd
      rw [hcount_ne d (Finset.ne_of_mem_erase hd)]
    rw [herase, hcount_c]
    by_cases hlt : seen.count c < b.count c
    · rw [if_pos hlt]
      omega
    · rw [if_neg hlt]
      omega
  · have hset : (seen ++ [c]).toFinset = insert c seen.toFinset := by
      rw [List.toFinset_append]
      simp only [List.toFinset_cons, List.toFinset_nil, insert_emptyc_eq]
      rw [Finset.union_comm, ← Finset.insert_eq]
    have hcs : seen.count c = 0 :=
      List.count_eq_zero.mpr (by simpa using hc)
    rw [hset, Finset.sum_insert hc]
    have hrest : Finset.sum seen.toFinset
        (fun d => min ((seen ++ [c]).count d) (b.count d)) =
        Finset.sum seen.toFinset (fun d => min (seen.count d) (b.count d)) := by
      apply Finset.sum_congr rfl
      intro d hd
      have hd2 : d ≠ c := by
        intro he
        exact hc (he ▸ hd)
      rw [hcount_ne d hd2]
    rw [hrest, hcount_c, hcs]
    by_cases h0 : 0 < b.count c
    · rw [if_pos h0]
      omega
    · rw [if_neg h0]
      omega

theorem quickLoop_closed (b : List Char) :
    ∀ (rest seen : List Char),
      quickLoop b rest
          (fun c => if seen.count c = 0 then none
            else some ((b.count c : Int) - seen.count c))
          (Finset.sum seen.toFinset (fun c => min (seen.count c) (b.count c))) =
        Finset.sum (seen ++ rest).toFinset
          (fun c => min ((seen ++ rest).count c) (b.count c)) := by
  intro rest
  induction rest with
  | nil =>
    intro seen
    rw [List.append_nil]
    rfl
  | cons c cs ih =>
    intro seen
    rw [quickLoop]
    have hnumb : (match (if seen.count c = 0 then none
        else some ((b.count c : Int) - seen.count c)) with
        | some v => v | none => (b.count c : Int)) =
        (b.count c : Int) - seen.count c := by
      by_cases h0 : seen.count c = 0
      · rw [if_pos h0, h0]
        simp
      · rw [if_neg h0]
    rw [hnumb]
    have havail : (fun d => if d = c then some ((b.count c : Int) - seen.count c - 1)
        else if seen.count d = 0 then none
          else some ((b.count d : Int) - seen.count d)) =
        (fun d => if (seen ++ [c]).count d = 0 then none
          else some ((b.count d : Int) - (seen ++ [c]).count d)) := by
      funext d
      by_cases hd : d = c
      · subst hd
        have : (seen ++ [d]).count d = seen.count d + 1 := by
          simp [List.count_append]
        rw [if_pos rfl, this]
        rw [if_neg (by omega)]
        congr 1
        push_cast
        ring
      · have : (seen ++ [c]).count d = seen.count d := by
          simp [List.count_append, List.count_singleton, hd]
        rw [if_neg hd, this]
    have hm : (if 0 < (b.count c : Int) - seen.count c then
        Finset.sum seen.toFinset (fun d => min (seen.count d) (b.count d)) + 1
        else Finset.sum seen.toFinset (fun d => min (seen.count d) (b.count d))) =
        Finset.sum (seen ++ [c]).toFinset
          (fun d => min ((seen ++ [c]).count d) (b.count d)) := by
      rw [sum_min_append_one seen b c]
      have hiff : (0 < (b.count c : Int) - seen.count c) ↔
          seen.count c < b.count c := by omega
      by_cases hlt : seen.count c < b.count c
      · rw [if_pos (hiff.mpr hlt), if_pos hlt]
      · rw [if_neg (fun hcon => hlt (hiff.mp hcon)), if_neg hlt]
        omega
    rw [havail, hm]
    have h2 := ih (seen ++ [c])
    rw [List.append_assoc] at h2
    simpa using h2

theorem quickMatches_closed (a b : List Char) :
    quickMatches a b =
      Finset.sum a.toFinset (fun c => min (a.count c) (b.count c)) := by
  have h := quickLoop_closed b a []
  have h0 : (fun c : Char => if ([] : List Char).count c = 0 then none
      else some ((b.count c : Int) - ([] : List Char).count c)) =
      (fun _ : Char => (none : Option Int)) := by
    funext c
    simp
  rw [h0] at h
  simp only [List.nil_append, List.toFinset_nil, Finset.sum_empty] at h
  exact h

theorem sum_count_toFinset (l : List Char) :
    Finset.sum l.toFinset (fun c => l.count c) = l.length := by
  have h := Multiset.toFinset_sum_count_eq (l : Multiset Char)
  simp only [Multiset.coe_count, Multiset.coe_card] at h
  exact h

theorem quickMatches_le_left (a b : List Char) : quickMatches a b ≤ a.length := by
  rw [quickMatches_closed]
  calc Finset.sum a.toFinset (fun c => min (a.count c) (b.count c))
      ≤ Finset.sum a.toFinset (fun c => a.count c) :=
        Finset.sum_le_sum (fun c _ => Nat.min_le_left _ _)
    _ = a.length := sum_count_toFinset a

theorem sum_le_of_count {s : Finset Char} {b : List Char}
    (f : Char → Nat) (hf : ∀ c ∈ s, f c ≤ b.count c) :
    Finset.sum s f ≤ b.length := by
  classical
  calc Finset.sum s f ≤ Finset.sum s (fun c => b.count c) := Finset.sum_le_sum hf
    _ = Finset.sum (s.filter (fun c => c ∈ b.toFinset)) (fun c => b.count c) := by
        symm
        apply Finset.sum_subset (Finset.filter_subset _ _)
        intro c hcs hcf
        have : c ∉ b.toFinset := by
          intro hcb
          exact hcf (Finset.mem_filter.mpr ⟨hcs, hcb⟩)
        exact List.count_eq_zero.mpr (by simpa using this)
    _ ≤ Finset.sum b.toFinset (fun c => b.count c) := by
        apply Finset.sum_le_sum_of_subset
        intro c hcf
        exact (Finset.mem_filter.mp hcf).2
    _ = b.length := sum_count_toFinset b

theorem quickMatches_le_right (a b : List Char) : quickMatches a b ≤ b.length := by
  rw [quickMatches_closed]
  exact sum_le_of_count _ (fun c _ => Nat.min_le_right _ _)

theorem matchedTotal_le_quickMatches (a b : List Char) :
    matchedTotal a b ≤ quickMatches a b := by
  classical
  rw [matchedTotal_eq_length, quickMatches_closed]
  have hsub : (matchedChars a b).toFinset ⊆ a.toFinset := by
    intro c hc
    have := (matchedChars_sublist_left a b).subset (by simpa using hc)
    simpa using this
  calc (matchedChars a b).length
      = Finset.sum (matchedChars a b).toFinset (fun c => (matchedChars a b).count c) :=
        (sum_count_toFinset _).symm
    _ ≤ Finset.sum (matchedChars a b).toFinset
        (fun c => min (a.count c) (b.count c)) := by
        apply Finset.sum_le_sum
        intro c _
        exact Nat.le_min.mpr ⟨(matchedChars_sublist_left a b).count_le c,
          (matchedChars_sublist_right a b).count_le c⟩
    _ ≤ Finset.sum a.toFinset (fun c => min (a.count c) (b.count c)) :=
        Finset.sum_le_sum_of_subset hsub

theorem smRatio_le_quickRatio (a b : List Char) : smRatio a b ≤ quickRatio a b :=
  calcRatio_mono (matchedTotal_le_quickMatches a b)

theorem quickRatio_le_realQuickRatio (a b : List Char) :
    quickRatio a b ≤ realQuickRatio a b :=
  calcRatio_mono (Nat.le_min.mpr ⟨quickMatches_le_left a b, quickMatches_le_right a b⟩)

theorem quickMatches_self (a : List Char) : quickMatches a a = a.length := by
  rw [quickMatches_closed]
  calc Finset.sum a.toFinset (fun c => min (a.count c) (a.count c))
      = Finset.sum a.toFinset (fun c => a.count c) := by
        apply Finset.sum_congr rfl
        intro c _
        exact Nat.min_self _
    _ = a.length := sum_count_toFinset a

theorem quickRatio_self (a : List Char) : quickRatio a a = 1 := by
  unfold quickRatio
  rw [quickMatches_self]
  exact calcRatio_one (by omega)

theorem realQuickRatio_self (a : List Char) : realQuickRatio a a = 1 := by
  unfold realQuickRatio
  rw [Nat.min_self]
  exact calcRatio_one (by omega)

/-! ## Comparing a short sequence with itself finds the whole sequence -/

theorem takeWhile_all {α : Type} {p : α → Bool} :
    ∀ {l : List α}, (∀ x ∈ l, p x = true) → l.takeWhile p = l := by
  intro l
  induction l with
  | nil => intro _; rfl
  | cons y ys ih =>
    intro h
    rw [List.takeWhile_cons, if_pos (h y (List.mem_cons_self y ys))]
    rw [ih (fun x hx => h x (List.mem_cons_of_mem y hx))]

theorem flmRowDiag_aux (i : Nat) :
    ∀ (js : List Nat) (st : (Nat → Nat) × (Nat × Nat × Nat)) (old : Nat → Nat),
      js.Pairwise (· < ·) →
      (∀ j, old j ≤ i) → (∀ j, old j ≤ j + 1) →
      (1 ≤ i → old (i - 1) = i) →
      ((i ∈ js ∧ st.2 = (0, 0, i) ∧ (∀ j, st.1 j ≤ i + 1) ∧ (∀ j, st.1 j ≤ j + 1)) ∨
       (i ∉ js ∧ st.2 = (0, 0, i + 1) ∧ st.1 i = i + 1 ∧
         (∀ j, st.1 j ≤ i + 1) ∧ (∀ j, st.1 j ≤ j + 1))) →
      (js.foldl (flmStep old i) st).2 = (0, 0, i + 1) ∧
        (js.foldl (flmStep old i) st).1 i = i + 1 ∧
        (∀ j, (js.foldl (flmStep old i) st).1 j ≤ i + 1) ∧
        (∀ j, (js.foldl (flmStep old i) st).1 j ≤ j + 1) := by
  intro js
  induction js with
  | nil =>
    intro st old _ _ _ _ hcase
    rcases hcase with ⟨habs, _⟩ | ⟨_, h2, h3, h4, h5⟩
    · cases habs
    · exact ⟨h2, h3, h4, h5⟩
  | cons j rest ih =>
    intro st old hpw hrow hcol hdiag hcase
    rw [List.foldl_cons]
    have hpw2 := List.pairwise_cons.mp hpw
    have hfst : ∀ q, (flmStep old i st j).1 q =
        if q = j then (if j = 0 then 0 else old (j - 1)) + 1 else st.1 q :=
      fun q => rfl
    have hsnd : (flmStep old i st j).2 =
        if st.2.2.2 < (if j = 0 then 0 else old (j - 1)) + 1 then
          (i + 1 - ((if j = 0 then 0 else old (j - 1)) + 1),
           j + 1 - ((if j = 0 then 0 else old (j - 1)) + 1),
           (if j = 0 then 0 else old (j - 1)) + 1)
        else st.2 := rfl
    have hkrow : (if j = 0 then 0 else old (j - 1)) + 1 ≤ i + 1 := by
      by_cases hj0 : j = 0
      · rw [if_pos hj0]; omega
      · rw [if_neg hj0]
        have := hrow (j - 1)
        omega
    have hkcol : (if j = 0 then 0 else old (j - 1)) + 1 ≤ j + 1 := by
      by_cases hj0 : j = 0
      · rw [if_pos hj0]; omega
      · rw [if_neg hj0]
        have := hcol (j - 1)
        omega
    apply ih (flmStep old i st j) old hpw2.2 hrow hcol hdiag
    rcases hcase with ⟨hmem, hb, hm1, hm2⟩ | ⟨hmem, hb, hdv, hm1, hm2⟩
    · -- the diagonal index is still ahead (or is the head)
      have hc : st.2.2.2 = i := by rw [hb]
      by_cases hji : j = i
      · -- the diagonal step
        right
        have hknew : (if j = 0 then 0 else old (j - 1)) + 1 = i + 1 := by
          by_cases hj0 : j = 0
          · rw [if_pos hj0]; omega
          · rw [if_neg hj0, hji]
            rw [hdiag (by omega)]
        have hnotmem : i ∉ rest := by
          intro hcm
          have := hpw2.1 i hcm
          omega
        refine ⟨hnotmem, ?_, ?_, ?_, ?_⟩
        · rw [hsnd, hc, hknew]
          rw [if_pos (by omega)]
          rw [hji]
          have e1 : i + 1 - (i + 1) = 0 := by omega
          rw [e1]
        · rw [hfst]
          rw [if_pos hji.symm]
          exact hknew
        · intro q
          rw [hfst]
          by_cases hqj : q = j
          · rw [if_pos hqj]; omega
          · rw [if_neg hqj]; exact hm1 q
        · intro q
          rw [hfst]
          by_cases hqj : q = j
          · rw [if_pos hqj]
            rw [hqj]
            exact hkcol
          · rw [if_neg hqj]; exact hm2 q
      · -- a pre-diagonal index: j < i, the best is not beaten
        left
        have hmem2 : i ∈ rest := by
          rcases List.mem_cons.mp hmem with h | h
          · exact absurd h.symm hji
          · exact h
        have hji2 : j < i := hpw2.1 i hmem2
        refine ⟨hmem2, ?_, ?_, ?_⟩
        · rw [hsnd, hc]
          rw [if_neg (by omega)]
          exact hb
        · intro q
          rw [hfst]
          by_cases hqj : q = j
          · rw [if_pos hqj]; omega
          · rw [if_neg hqj]; exact hm1 q
        · intro q
          rw [hfst]
          by_cases hqj : q = j
          · rw [if_pos hqj]
            rw [hqj]
            exact hkcol
          · rw [if_neg hqj]; exact hm2 q
    · -- the diagonal has already been processed
      right
      have hc : st.2.2.2 = i + 1 := by rw [hb]
      have hji : j ≠ i := fun h => hmem (h ▸ List.mem_cons_self j rest)
      refine ⟨fun hcm => hmem (List.mem_cons_of_mem j hcm), ?_, ?_, ?_, ?_⟩
      · rw [hsnd, hc]
        rw [if_neg (by omega)]
        exact hb
      · rw [hfst]
        rw [if_neg (fun h : i = j => hji h.symm)]
        exact hdv
      · intro q
        rw [hfst]
        by_cases hqj : q = j
        · rw [if_pos hqj]; omega
        · rw [if_neg hqj]; exact hm1 q
      · intro q
        rw [hfst]
        by_cases hqj : q = j
        · rw [if_pos hqj]
          rw [hqj]
          exact hkcol
        · rw [if_neg hqj]; exact hm2 q

theorem flmRowDiag (a : List Char) (hpop : bPopular a = []) (i : Nat) (hi : i < a.length)
    (st : (Nat → Nat) × (Nat × Nat × Nat))
    (hold1 : ∀ j, st.1 j ≤ i) (hold2 : ∀ j, st.1 j ≤ j + 1)
    (hdiag : 1 ≤ i → st.1 (i - 1) = i)
    (hbest : st.2 = (0, 0, i)) :
    (flmRow (b2j a) a 0 a.length st i).2 = (0, 0, i + 1) ∧
      (flmRow (b2j a) a 0 a.length st i).1 i = i + 1 ∧
      (∀ j, (flmRow (b2j a) a 0 a.length st i).1 j ≤ i + 1) ∧
      (∀ j, (flmRow (b2j a) a 0 a.length st i).1 j ≤ j + 1) := by
  have hb2j : b2j a (a.getD i dCh) = b2jBase a (a.getD i dCh) := by
    unfold b2j
    rw [hpop]
    simp
  have hjs : ((b2j a (a.getD i dCh)).takeWhile
      (fun j => decide (j < a.length))).filter (fun j => decide (0 ≤ j)) =
      b2jBase a (a.getD i dCh) := by
    rw [hb2j]
    rw [takeWhile_all (fun x hx => by
      simp only [decide_eq_true_eq]
      exact (b2jBase_sound hx).1)]
    apply List.filter_eq_self.mpr
    intro x _
    simp
  have hfr : flmRow (b2j a) a 0 a.length st i =
      (b2jBase a (a.getD i dCh)).foldl (flmStep st.1 i) ((fun _ => 0), st.2) := by
    show (((b2j a (a.getD i dCh)).takeWhile
        (fun j => decide (j < a.length))).filter (fun j => decide (0 ≤ j))).foldl
          (flmStep st.1 i) ((fun _ => 0), st.2) = _
    rw [hjs]
  rw [hfr]
  apply flmRowDiag_aux i (b2jBase a (a.getD i dCh)) ((fun _ => 0), st.2) st.1
    (List.Pairwise.filter _ (List.pairwise_lt_range a.length))
    hold1 hold2 hdiag
  left
  refine ⟨b2jBase_complete hi rfl, hbest, ?_, ?_⟩
  · intro j; exact Nat.zero_le _
  · intro j; exact Nat.zero_le _

theorem flmLoopDiag (a : List Char) (hpop : bPopular a = []) :
    (flmLoop (b2j a) a 0 a.length 0 a.length).2 = (0, 0, a.length) := by
  unfold flmLoop
  have h := foldl_range'_inv (P := fun i st =>
      (∀ j, (st : (Nat → Nat) × (Nat × Nat × Nat)).1 j ≤ i) ∧
      (∀ j, st.1 j ≤ j + 1) ∧ (1 ≤ i → st.1 (i - 1) = i) ∧ st.2 = (0, 0, i))
    (f := flmRow (b2j a) a 0 a.length) (a.length - 0) 0 ((fun _ => 0), (0, 0, 0))
    ⟨fun j => Nat.le_refl 0, fun j => Nat.zero_le _, fun h1 => absurd h1 (by omega), rfl⟩
    (fun i stx hi hilt hp => by
      have hrow := flmRowDiag a hpop i (by omega) stx hp.1 hp.2.1 hp.2.2.1 hp.2.2.2
      refine ⟨hrow.2.2.1, hrow.2.2.2, ?_, hrow.1⟩
      intro _
      have e : i + 1 - 1 = i := by omega
      rw [e]
      exact hrow.2.1)
  have e : 0 + (a.length - 0) = a.length := by omega
  rw [e] at h
  exact h.2.2.2

theorem flm_self (a : List Char) (hpop : bPopular a = []) :
    findLongestMatch a a 0 a.length 0 a.length = (0, 0, a.length) := by
  unfold findLongestMatch
  rw [flmLoopDiag a hpop]
  show extendUpper a a a.length a.length 0 0 a.length = (0, 0, a.length)
  unfold extendUpper
  have e : a.length - (0 + a.length) = 0 := by omega
  rw [e]
  rfl

theorem matchedTotal_self (a : List Char) (hpop : bPopular a = []) :
    matchedTotal a a = a.length := by
  unfold matchedTotal matchedBlocks
  rw [matchedBlocksF]
  rw [flm_self a hpop]
  by_cases hla : a.length = 0
  · rw [if_pos hla]
    simp [hla]
  · rw [if_neg hla]
    rw [if_neg (by simp only; omega)]
    rw [if_neg (by simp only; omega)]
    simp

theorem smRatio_self (a : List Char) (hpop : bPopular a = []) : smRatio a a = 1 := by
  unfold smRatio
  rw [matchedTotal_self a hpop]
  exact calcRatio_one (by omega)

/-! ## The nlargest(1) selection -/

theorem pyLtChars_irrefl : ∀ (l : List Char), pyLtChars l l = false := by
  intro l
  induction l with
  | nil => rfl
  | cons c cs ih =>
    rw [pyLtChars]
    rw [if_neg (lt_irrefl c), if_neg (lt_irrefl c)]
    exact ih

theorem pyLtChars_trans :
    ∀ {l1 l2 l3 : List Char}, pyLtChars l1 l2 = true → pyLtChars l2 l3 = true →
      pyLtChars l1 l3 = true := by
  intro l1
  induction l1 with
  | nil =>
    intro l2 l3 h12 h23
    cases l3 with
    | nil =>
      cases l2 with
      | nil => cases h12
      | cons c cs => cases h23
    | cons c cs => rfl
  | cons x xs ih =>
    intro l2 l3 h12 h23
    cases l2 with
    | nil => cases h12
    | cons y ys =>
      cases l3 with
      | nil => cases h23
      | cons z zs =>
        rw [pyLtChars] at h12 h23 ⊢
        by_cases hxy : x < y
        · -- x < y; need x < z or deeper
          by_cases hyz : y < z
          · rw [if_pos (lt_trans hxy hyz)]
          · rw [if_neg hyz] at h23
            by_cases hzy : z < y
            · rw [if_pos hzy] at h23
              cases h23
            · have hyzeq : y = z := le_antisymm (le_of_not_lt hzy) (le_of_not_lt hyz)
              rw [if_pos (hyzeq ▸ hxy)]
        · rw [if_neg hxy] at h12
          by_cases hyx : y < x
          · rw [if_pos hyx] at h12
            cases h12
          · rw [if_neg hyx] at h12
            have hxyeq : x = y := le_antisymm (le_of_not_lt hyx) (le_of_not_lt hxy)
            subst hxyeq
            by_cases hxz : x < z
            · rw [if_pos hxz]
            · rw [if_neg hxz] at h23 ⊢
              by_cases hzx : z < x
              · rw [if_pos hzx] at h23
                cases h23
              · rw [if_neg hzx] at h23 ⊢
                exact ih h12 h23

theorem tupLt_irrefl (p : ℚ × String) : tupLt p p = false := by
  unfold tupLt
  rw [pyLtChars_irrefl]
  simp

theorem tupLt_trans {p q r : ℚ × String} (h1 : tupLt p q = true) (h2 : tupLt q r = true) :
    tupLt p r = true := by
  unfold tupLt at h1 h2 ⊢
  simp only [Bool.or_eq_true, Bool.and_eq_true, decide_eq_true_eq] at h1 h2 ⊢
  rcases h1 with h1 | ⟨h1e, h1s⟩
  · rcases h2 with h2 | ⟨h2e, h2s⟩
    · exact Or.inl (lt_trans h1 h2)
    · exact Or.inl (h2e ▸ h1)
  · rcases h2 with h2 | ⟨h2e, h2s⟩
    · exact Or.inl (h1e ▸ h2)
    · exact Or.inr ⟨h1e.trans h2e, pyLtChars_trans h1s h2s⟩

theorem nlargest1_spec (l : List (ℚ × String)) :
    (l = [] ∧ nlargest1 l = none) ∨
      (∃ p, nlargest1 l = some p ∧ p ∈ l ∧ ∀ q ∈ l, tupLt p q = false) := by
  unfold nlargest1
  have main : ∀ (rest : List (ℚ × String)) (m : ℚ × String)
      (done : List (ℚ × String)), m ∈ done → (∀ q ∈ done, tupLt m q = false) →
      ∃ p, rest.foldl (fun acc p =>
          match acc with
          | none => some p
          | some q => if tupLt q p then some p else some q) (some m) = some p ∧
        (p ∈ done ∨ p ∈ rest) ∧
        (∀ q, q ∈ done ∨ q ∈ rest → tupLt p q = false) := by
    intro rest
    induction rest with
    | nil =>
      intro m done hm hmax
      refine ⟨m, rfl, Or.inl hm, ?_⟩
      intro q hq
      rcases hq with hq | hq
      · exact hmax q hq
      · cases hq
    | cons x xs ih =>
      intro m done hm hmax
      rw [List.foldl_cons]
      by_cases hlt : tupLt m x = true
      · simp only [hlt, if_true]
        have hnew : ∀ q ∈ x :: done, tupLt x q = false := by
          intro q hq
          rcases List.mem_cons.mp hq with hq | hq
          · rw [hq]; exact tupLt_irrefl x
          · by_cases hc : tupLt x q = true
            · exfalso
              have := tupLt_trans hlt hc
              rw [hmax q hq] at this
              cases this
            · exact Bool.eq_false_iff.mpr hc
        rcases ih x (x :: done) (List.mem_cons_self x done) hnew with ⟨p, hp1, hp2, hp3⟩
        refine ⟨p, hp1, ?_, ?_⟩
        · rcases hp2 with hp | hp
          · rcases List.mem_cons.mp hp with hp | hp
            · exact Or.inr (hp ▸ List.mem_cons_self x xs)
            · exact Or.inl hp
          · exact Or.inr (List.mem_cons_of_mem x hp)
        · intro q hq
          rcases hq with hq | hq
          · exact hp3 q (Or.inl (List.mem_cons_of_mem x hq))
          · rcases List.mem_cons.mp hq with hq | hq
            · exact hp3 q (Or.inl (hq ▸ List.mem_cons_self x done))
            · exact hp3 q (Or.inr hq)
      · have hltf : tupLt m x = false := Bool.eq_false_iff.mpr hlt
        simp only [hltf, Bool.false_eq_true, if_false]
        have hnew : ∀ q ∈ x :: done, tupLt m q = false := by
          intro q hq
          rcases List.mem_cons.mp hq with hq | hq
          · subst hq; exact Bool.eq_false_iff.mpr hlt
          · exact hmax q hq
        rcases ih m (x :: done) (List.mem_cons_of_mem x hm) hnew with ⟨p, hp1, hp2, hp3⟩
        refine ⟨p, hp1, ?_, ?_⟩
        · rcases hp2 with hp | hp
          · rcases List.mem_cons.mp hp with hp | hp
            · exact Or.inr (hp ▸ List.mem_cons_self x xs)
            · exact Or.inl hp
          · exact Or.inr (List.mem_cons_of_mem x hp)
        · intro q hq
          rcases hq with hq | hq
          · exact hp3 q (Or.inl (List.mem_cons_of_mem x hq))
          · rcases List.mem_cons.mp hq with hq | hq
            · exact hp3 q (Or.inl (hq ▸ List.mem_cons_self x done))
            · exact hp3 q (Or.inr hq)
  cases l with
  | nil => exact Or.inl ⟨rfl, rfl⟩
  | cons x xs =>
    right
    rw [List.foldl_cons]
    rcases main xs x [x] (List.mem_cons_self x []) (fun q hq => by
        rcases List.mem_cons.mp hq with hq | hq
        · rw [hq]; exact tupLt_irrefl x
        · cases hq) with ⟨p, hp1, hp2, hp3⟩
    refine ⟨p, hp1, ?_, ?_⟩
    · rcases hp2 with hp | hp
      · rcases List.mem_cons.mp hp with hp | hp
        · exact hp ▸ List.mem_cons_self x xs
        · cases hp
      · exact List.mem_cons_of_mem x hp
    · intro q hq
      rcases List.mem_cons.mp hq with hq | hq
      · exact hp3 q (Or.inl (hq ▸ List.mem_cons_self x []))
      · exact hp3 q (Or.inr hq)

theorem nlargest1_mem {l : List (ℚ × String)} {p : ℚ × String}
    (h : nlargest1 l = some p) : p ∈ l ∧ ∀ q ∈ l, tupLt p q = false := by
  rcases nlargest1_spec l with ⟨_, hn⟩ | ⟨p2, hp1, hp2, hp3⟩
  · rw [h] at hn
    cases hn
  · rw [h] at hp1
    cases hp1
    exact ⟨hp2, hp3⟩

/-! ## Glue: the filters and branches of suggest -/

theorem difflibCands_eq (word : String) (cutoff : ℚ) (ws : List String) :
    difflibCands word cutoff ws =
      (qualList word cutoff ws).map (fun x => (smRatio x.data word.data, x)) := by
  unfold difflibCands qualList
  induction ws with
  | nil => rfl
  | cons x xs ih =>
    rw [List.filterMap_cons, List.filter_cons]
    by_cases h : cutoff ≤ smRatio x.data word.data
    · have hq : cutoff ≤ quickRatio x.data word.data :=
        le_trans h (smRatio_le_quickRatio _ _)
      have hr : cutoff ≤ realQuickRatio x.data word.data :=
        le_trans hq (quickRatio_le_realQuickRatio _ _)
      rw [if_pos ⟨hr, hq, h⟩, if_pos (by simpa using h)]
      rw [List.map_cons, ih]
    · rw [if_neg (fun hc => h hc.2.2), if_neg (by simpa using h)]
      exact ih

theorem qualList_subset {word : String} {cutoff : ℚ} {ws : List String} {x : String}
    (h : x ∈ qualList word cutoff ws) : x ∈ ws ∧ cutoff ≤ smRatio x.data word.data := by
  unfold qualList at h
  have h2 := List.mem_filter.mp h
  exact ⟨h2.1, by simpa using h2.2⟩

theorem qualList_mem {word : String} {cutoff : ℚ} {ws : List String} {x : String}
    (hx : x ∈ ws) (hr : cutoff ≤ smRatio x.data word.data) :
    x ∈ qualList word cutoff ws := by
  unfold qualList
  exact List.mem_filter.mpr ⟨hx, by simpa using hr⟩

theorem getCloseMatches1_valid (word : String) (ws : List String) (cutoff : ℚ)
    (h0 : 0 ≤ cutoff) (h1 : cutoff ≤ 1) :
    getCloseMatches1 word ws cutoff =
      .ok (match nlargest1 (difflibCands word cutoff ws) with
        | none => []
        | some p => [p.2]) := by
  unfold getCloseMatches1
  rw [if_neg (not_not_intro ⟨h0, h1⟩)]

theorem levenshtein_eq_filter (word : String) (ws : List String) (n : Nat) (cutoff : ℚ) :
    levenshtein word ws n cutoff =
      ws.filter (fun d => decide (cutoff < levRatio word.data d.data)) := by
  unfold levenshtein
  apply List.filter_congr
  intro d _
  simp

theorem lookup_mem_values {α β : Type} [BEq α] :
    ∀ {l : List (α × β)} {k : α} {v : β},
      l.lookup k = some v → v ∈ l.map Prod.snd := by
  intro l
  induction l with
  | nil => intro k v h; cases h
  | cons p ps ih =>
    intro k v h
    rw [List.lookup_cons] at h
    cases hbeq : (k == p.1) with
    | true =>
      simp only [hbeq] at h
      cases h
      exact List.mem_cons_self _ _
    | false =>
      simp only [hbeq] at h
      exact List.mem_cons_of_mem _ (ih h)

theorem candidates_self (word : String) : candidates word = [word] := by
  unfold candidates known
  simp

theorem spelling_error (word : String) (ws : List String) :
    spelling word ws =
      .error "TypeError: probability() missing 1 required positional argument: WORDS" := by
  unfold spelling correction
  rw [candidates_self]

theorem suggestWith_lookup {word v : String} {cutoff : ℚ} {ws : List String} {algo : String}
    (h : LOOKUP_TABLE.lookup word = some v) :
    suggestWith word cutoff ws algo = .ok v := by
  unfold suggestWith
  rw [h]

theorem suggestWith_lev {word : String} {cutoff : ℚ} {ws : List String}
    (h : LOOKUP_TABLE.lookup word = none) :
    suggestWith word cutoff ws "levenshtein" =
      .ok (match ws.filter (fun d => decide (cutoff < levRatio word.data d.data)) with
        | [] => word
        | g :: _ => g) := by
  unfold suggestWith
  rw [h, ← levenshtein_eq_filter word ws 1 cutoff]
  rfl

theorem suggestWith_spellr {word : String} {cutoff : ℚ} {ws : List String}
    (h : LOOKUP_TABLE.lookup word = none) :
    suggestWith word cutoff ws "spellr" =
      .error "TypeError: probability() missing 1 required positional argument: WORDS" := by
  unfold suggestWith
  rw [h]
  have hne : ¬ (("spellr" : String) = "levenshtein") := by decide
  rw [if_neg hne, if_pos rfl, spelling_error]

theorem suggestWith_difflib {word : String} {cutoff : ℚ} {ws : List String}
    (h : LOOKUP_TABLE.lookup word = none) (h0 : 0 ≤ cutoff) (h1 : cutoff ≤ 1) :
    suggestWith word cutoff ws "difflib" =
      .ok (match nlargest1 (difflibCands word cutoff ws) with
        | none => word
        | some p => p.2) := by
  unfold suggestWith
  rw [h]
  have hne1 : ¬ (("difflib" : String) = "levenshtein") := by decide
  have hne2 : ¬ (("difflib" : String) = "spellr") := by decide
  rw [if_neg hne1, if_neg hne2, getCloseMatches1_valid word ws cutoff h0 h1]
  cases nlargest1 (difflibCands word cutoff ws) with
  | none => rfl
  | some p => rfl

theorem suggest_none_override (word : String) (cutoff : ℚ) (algo : String) :
    suggest word cutoff none algo = suggestWith word cutoff MOST_COMMON_DOMAINS algo := rfl

/-! ## Facts about the static data -/

set_option maxRecDepth 4000 in
theorem most_not_key : ∀ D ∈ MOST_COMMON_DOMAINS, LOOKUP_TABLE.lookup D = none := by
  decide

set_option maxRecDepth 4000 in
theorem most_short : ∀ D ∈ MOST_COMMON_DOMAINS, D.data.length < 200 := by
  decide

set_option maxRecDepth 4000 in
theorem most_ne_empty : ∀ D ∈ MOST_COMMON_DOMAINS, D ≠ "" := by
  decide

set_option maxRecDepth 4000 in
theorem values_ne_empty : ∀ v ∈ LOOKUP_TABLE.map Prod.snd, v ≠ "" := by
  decide

theorem suggestWith_default {word : String} {cutoff : ℚ} {ws : List String} {algo : String}
    (h : LOOKUP_TABLE.lookup word = none)
    (ha1 : ¬ algo = "levenshtein") (ha2 : ¬ algo = "spellr") :
    suggestWith word cutoff ws algo =
      match getCloseMatches1 word ws cutoff with
      | .error e => .error e
      | .ok guess => .ok (match guess with | [] => word | g :: _ => g) := by
  unfold suggestWith
  rw [h, if_neg ha1, if_neg ha2]

theorem suggestWith_difflib2 {word : String} {cutoff : ℚ} {ws : List String} {algo : String}
    (h : LOOKUP_TABLE.lookup word = none)
    (ha1 : ¬ algo = "levenshtein") (ha2 : ¬ algo = "spellr")
    (h0 : 0 ≤ cutoff) (h1 : cutoff ≤ 1) :
    suggestWith word cutoff ws algo =
      .ok (match nlargest1 (difflibCands word cutoff ws) with
        | none => word
        | some p => p.2) := by
  rw [suggestWith_default h ha1 ha2, getCloseMatches1_valid word ws cutoff h0 h1]
  cases nlargest1 (difflibCands word cutoff ws) with
  | none => rfl
  | some p => rfl

theorem getCloseMatches1_subset {word : String} {ws : List String} {cutoff : ℚ}
    {guess : List String} (hval : getCloseMatches1 word ws cutoff = .ok guess) :
    ∀ g ∈ guess, g ∈ ws := by
  unfold getCloseMatches1 at hval
  split at hval
  · cases hval
  · injection hval with h2
    subst h2
    cases hn : nlargest1 (difflibCands word cutoff ws) with
    | none =>
      intro g hg
      exact absurd hg (List.not_mem_nil g)
    | some p =>
      intro g hg
      rcases List.mem_cons.mp hg with hg | hg
      · subst hg
        have hp := (nlargest1_mem hn).1
        rw [difflibCands_eq] at hp
        rcases List.mem_map.mp hp with ⟨x, hxq, hpx⟩
        have : p.2 = x := by rw [← hpx]
        rw [this]
        exact (qualList_subset hxq).1
      · cases hg

theorem suggest_some_override (word : String) (cutoff : ℚ) (ws : List String)
    (algo : String) (hne : ws ≠ []) :
    suggest word cutoff (some ws) algo = suggestWith word cutoff ws algo := by
  have hemp : ws.isEmpty = false := List.isEmpty_eq_false.mpr hne
  show suggestWith word cutoff (if ws.isEmpty = true then MOST_COMMON_DOMAINS else ws) algo =
    suggestWith word cutoff ws algo
  rw [hemp]
  simp only [Bool.false_eq_true, if_false]

/-! ## The claims -/

/-- C1 (code bug): the claim says `suggest` never raises for any input,
    cutoff and algorithm.  In the `spellr` variant, `correction` calls
    `max(candidates(word), key=probability)`, and CPython applies the key
    function `probability` — which requires two positional arguments — to
    the first element, so every `spellr` call whose word is not a lookup
    key raises `TypeError`.  Evaluated here at the module's own example
    word. -/
theorem spellr_always_raises :
    suggest "yahuo.com" (mkRat 77 100) none "spellr" =
      .error "TypeError: probability() missing 1 required positional argument: WORDS" :=
  rfl

/-- C2 (confirmed): a typo-lookup-table hit is returned immediately, for
    every cutoff, override list and algorithm string: the check precedes
    the dispatch on `algo`. -/
theorem lookup_shortcircuit (word : String) (cutoff : ℚ)
    (override : Option (List String)) (algo : String) (v : String)
    (h : LOOKUP_TABLE.lookup word = some v) :
    suggest word cutoff override algo = .ok v := by
  unfold suggest
  exact suggestWith_lookup h

theorem lookup_shortcircuit_witness :
    LOOKUP_TABLE.lookup "gmail" = some "gmail.com" ∧
      suggest "gmail" (mkRat 1 2) (some ["zzz.example"]) "spellr" = .ok "gmail.com" :=
  ⟨rfl, lookup_shortcircuit "gmail" (mkRat 1 2) (some ["zzz.example"]) "spellr"
    "gmail.com" rfl⟩

/-- C3 (counterexample): the claim says the output is always a non-empty
    string.  For the empty input word no domain passes the cutoff filter
    and `suggest` returns the input — the empty string — unchanged. -/
theorem empty_input_gives_empty_output :
    suggest "" (mkRat 77 100) none "difflib" = .ok "" ∧ ("" : String).length = 0 :=
  ⟨rfl, rfl⟩

/-- C3 (amended): whenever a default-list `suggest` call returns a value,
    that value is a member of `MOST_COMMON_DOMAINS`, a value of
    `LOOKUP_TABLE`, or the input itself; consequently it is non-empty
    whenever the input is non-empty. -/
theorem suggest_output_form (word : String) (cutoff : ℚ) (algo : String) (v : String)
    (h : suggest word cutoff none algo = .ok v) :
    (v ∈ MOST_COMMON_DOMAINS ∨ v ∈ LOOKUP_TABLE.map Prod.snd ∨ v = word) ∧
      (word ≠ "" → v ≠ "") := by
  rw [suggest_none_override] at h
  have hmain : v ∈ MOST_COMMON_DOMAINS ∨ v ∈ LOOKUP_TABLE.map Prod.snd ∨ v = word := by
    cases hlk : LOOKUP_TABLE.lookup word with
    | some u =>
      rw [suggestWith_lookup hlk] at h
      injection h with h2
      exact Or.inr (Or.inl (h2 ▸ lookup_mem_values hlk))
    | none =>
      by_cases ha1 : algo = "levenshtein"
      · subst ha1
        rw [suggestWith_lev hlk] at h
        cases hfil : MOST_COMMON_DOMAINS.filter
            (fun d => decide (cutoff < levRatio word.data d.data)) with
        | nil =>
          rw [hfil] at h
          injection h with h2
          exact Or.inr (Or.inr h2.symm)
        | cons d rest =>
          rw [hfil] at h
          injection h with h2
          have hdm : d ∈ MOST_COMMON_DOMAINS := by
            have hm : d ∈ MOST_COMMON_DOMAINS.filter
                (fun d => decide (cutoff < levRatio word.data d.data)) :=
              hfil ▸ List.mem_cons_self d rest
            exact (List.mem_filter.mp hm).1
          exact Or.inl (h2 ▸ hdm)
      · by_cases ha2 : algo = "spellr"
        · subst ha2
          rw [suggestWith_spellr hlk] at h
          cases h
        · rw [suggestWith_default hlk ha1 ha2] at h
          cases hval : getCloseMatches1 word MOST_COMMON_DOMAINS cutoff with
          | error e =>
            rw [hval] at h
            cases h
          | ok guess =>
            rw [hval] at h
            cases guess with
            | nil =>
              injection h with h2
              exact Or.inr (Or.inr h2.symm)
            | cons g rest =>
              injection h with h2
              exact Or.inl (h2 ▸ getCloseMatches1_subset hval g
                (List.mem_cons_self g rest))
  refine ⟨hmain, ?_⟩
  intro hw
  rcases hmain with hm | hm | hm
  · exact most_ne_empty v hm
  · exact values_ne_empty v hm
  · exact hm ▸ hw

theorem suggest_output_form_witness :
    (("gmail.com" : String) ∈ MOST_COMMON_DOMAINS ∨
      ("gmail.com" : String) ∈ LOOKUP_TABLE.map Prod.snd ∨ ("gmail.com" : String) = "gmail") ∧
      (("gmail" : String) ≠ "" → ("gmail.com" : String) ≠ "") :=
  suggest_output_form "gmail" (mkRat 77 100) "difflib" "gmail.com" rfl

set_option maxRecDepth 4000 in
/-- C4 (counterexample): the claim says every reference-list member maps
    to itself under *every* algorithm choice.  Under `levenshtein` the
    member `hotmail.com.ar` maps to `hotmail.ca` (the first domain in
    list order whose ratio clears the cutoff), and under `spellr` the
    call raises a TypeError. -/
theorem member_identity_fails_counterexample :
    ("hotmail.com.ar" : String) ∈ MOST_COMMON_DOMAINS ∧
      suggest "hotmail.com.ar" (mkRat 77 100) none "levenshtein" = .ok "hotmail.ca" ∧
      ("gmail.com" : String) ∈ MOST_COMMON_DOMAINS ∧
      suggest "gmail.com" (mkRat 77 100) none "spellr" =
        .error "TypeError: probability() missing 1 required positional argument: WORDS" :=
  ⟨by decide, rfl, by decide, rfl⟩

/-- C4 (amended): identity on members holds for the default (difflib)
    variant with the default cutoff 0.77: a member scores a perfect
    ratio 1 against itself, every other domain scores strictly less than
    1, and the largest `(score, domain)` tuple wins. -/
theorem member_identity_difflib (D : String) (hD : D ∈ MOST_COMMON_DOMAINS) :
    suggest D (mkRat 77 100) none "difflib" = .ok D := by
  have hlk := most_not_key D hD
  have hpop : bPopular D.data = [] := bPopular_nil (most_short D hD)
  rw [suggest_none_override,
    suggestWith_difflib2 hlk (by decide) (by decide) (by decide) (by decide)]
  have hself : smRatio D.data D.data = 1 := smRatio_self D.data hpop
  have hDq : D ∈ qualList D (mkRat 77 100) MOST_COMMON_DOMAINS :=
    qualList_mem hD (by rw [hself]; decide)
  have hDtup : (smRatio D.data D.data, D) ∈
      difflibCands D (mkRat 77 100) MOST_COMMON_DOMAINS := by
    rw [difflibCands_eq]
    exact List.mem_map.mpr ⟨D, hDq, rfl⟩
  cases hn : nlargest1 (difflibCands D (mkRat 77 100) MOST_COMMON_DOMAINS) with
  | none =>
    exfalso
    rcases nlargest1_spec (difflibCands D (mkRat 77 100) MOST_COMMON_DOMAINS) with
      ⟨hnil, _⟩ | ⟨p, hp, _, _⟩
    · rw [hnil] at hDtup
      cases hDtup
    · rw [hn] at hp
      cases hp
  | some p =>
    rcases nlargest1_mem hn with ⟨hpmem, hpmax⟩
    rw [difflibCands_eq] at hpmem
    rcases List.mem_map.mp hpmem with ⟨x, hxq, hpx⟩
    have hmax := hpmax (smRatio D.data D.data, D) hDtup
    have hxD : x = D := by
      by_contra hne
      have hlt : smRatio x.data D.data < 1 := by
        rcases lt_or_eq_of_le (smRatio_le_one x.data D.data) with hcase | hcase
        · exact hcase
        · exact absurd (String.ext (smRatio_eq_one hcase)) hne
      have htrue : tupLt p (smRatio D.data D.data, D) = true := by
        rw [← hpx]
        show (decide (smRatio x.data D.data < smRatio D.data D.data) ||
          (decide (smRatio x.data D.data = smRatio D.data D.data) &&
            pyLtChars x.data D.data)) = true
        rw [hself, decide_eq_true hlt, Bool.true_or]
      rw [hmax] at htrue
      cases htrue
    show (Except.ok p.2 : Except String String) = .ok D
    have hp2 : p.2 = x := by rw [← hpx]
    rw [hp2, hxD]

set_option maxRecDepth 4000 in
theorem member_identity_difflib_witness :
    suggest "gmail.com" (mkRat 77 100) none "difflib" = .ok "gmail.com" :=
  member_identity_difflib "gmail.com" (by decide)

/-- C5 (counterexample): the claim says a score must *strictly* exceed
    the cutoff and that ties go to the first-encountered domain.  difflib
    uses `>=` (a score exactly equal to the cutoff is accepted), and
    `heapq.nlargest` compares the `(score, string)` tuples, so among equal
    scores the lexicographically larger string wins, not the earlier
    one. -/
theorem difflib_tiebreak_counterexample :
    suggest "ab" (mkRat 2 5) (some ["ax", "ay"]) "difflib" = .ok "ay" ∧
      suggest "ab" (mkRat 1 2) (some ["abcdef"]) "difflib" = .ok "abcdef" :=
  ⟨rfl, rfl⟩

/-- C5 (amended): for any working list, cutoff in `[0, 1]` and
    non-lookup word, the difflib variant returns the input when no domain
    reaches the cutoff (the quick upper-bound pre-tests never reject a
    candidate whose full ratio reaches it), and otherwise returns a
    qualifying domain whose `(score, string)` tuple is maximal: every
    other qualifier scores strictly less, or ties and is lexicographically
    at most the winner. -/
theorem difflib_selection_rule (word : String) (cutoff : ℚ) (ws : List String)
    (hlk : LOOKUP_TABLE.lookup word = none) (h0 : 0 ≤ cutoff) (h1 : cutoff ≤ 1) :
    (qualList word cutoff ws = [] ∧ suggestWith word cutoff ws "difflib" = .ok word) ∨
      (∃ d, d ∈ qualList word cutoff ws ∧
        suggestWith word cutoff ws "difflib" = .ok d ∧
        ∀ e ∈ qualList word cutoff ws,
          smRatio e.data word.data < smRatio d.data word.data ∨
            (smRatio e.data word.data = smRatio d.data word.data ∧
              pyLtChars d.data e.data = false)) := by
  rw [suggestWith_difflib2 hlk (by decide) (by decide) h0 h1]
  rcases nlargest1_spec (difflibCands word cutoff ws) with ⟨hnil, hnone⟩ | ⟨p, hp1, hp2, hp3⟩
  · left
    have hqnil : qualList word cutoff ws = [] :=
      List.map_eq_nil_iff.mp ((difflibCands_eq word cutoff ws).symm.trans hnil)
    refine ⟨hqnil, ?_⟩
    rw [hnone]
  · right
    rw [hp1]
    rw [difflibCands_eq] at hp2 hp3
    rcases List.mem_map.mp hp2 with ⟨d, hdq, hpd⟩
    refine ⟨d, hdq, ?_, ?_⟩
    · show (Except.ok p.2 : Except String String) = .ok d
      rw [← hpd]
    · intro e heq
      have hfalse := hp3 (smRatio e.data word.data, e) (List.mem_map.mpr ⟨e, heq, rfl⟩)
      rw [← hpd] at hfalse
      unfold tupLt at hfalse
      simp only [Bool.or_eq_false_iff, Bool.and_eq_false_iff,
        decide_eq_false_iff_not] at hfalse
      rcases hfalse with ⟨hnlt, hsecond⟩
      rcases lt_or_eq_of_le (le_of_not_lt hnlt) with hcase | hcase
      · exact Or.inl hcase
      · refine Or.inr ⟨hcase, ?_⟩
        rcases hsecond with hbad | hpy
        · exact absurd hcase.symm hbad
        · exact hpy

theorem difflib_selection_rule_witness :
    (qualList "ab" (mkRat 1 2) ["ax"] = [] ∧
      suggestWith "ab" (mkRat 1 2) ["ax"] "difflib" = .ok "ab") ∨
      (∃ d, d ∈ qualList "ab" (mkRat 1 2) ["ax"] ∧
        suggestWith "ab" (mkRat 1 2) ["ax"] "difflib" = .ok d ∧
        ∀ e ∈ qualList "ab" (mkRat 1 2) ["ax"],
          smRatio e.data "ab".data < smRatio d.data "ab".data ∨
            (smRatio e.data "ab".data = smRatio d.data "ab".data ∧
              pyLtChars d.data e.data = false)) :=
  difflib_selection_rule "ab" (mkRat 1 2) ["ax"] rfl (by decide) (by decide)

/-- C6 (counterexample): the claim says the levenshtein variant collects
    at most one result and that its default cutoff 0.80 applies when no
    explicit cutoff is supplied.  The collection in fact keeps every
    domain above the cutoff (here two), and a call through `suggest`
    without an explicit cutoff uses suggest's own default 0.77, accepting
    a 0.80-ratio match that a strict 0.80 cutoff would reject. -/
theorem lev_collection_counterexample :
    (levenshtein "yahoo.com.a" ["yahoo.com.ar", "yahoo.com.au"] 1 (mkRat 77 100)).length = 2 ∧
      suggest "abcdefghij" (mkRat 77 100) (some ["abcdefghxy"]) "levenshtein" =
        .ok "abcdefghxy" :=
  ⟨rfl, rfl⟩

/-- C6 (amended): the levenshtein variant collects *all* working-list
    domains whose ratio strictly exceeds the cutoff that `suggest`
    passes (its `matches`-length guard is vacuous), and `suggest` returns
    the first collected domain in list order, or the input when none
    qualify. -/
theorem lev_selection_rule (word : String) (cutoff : ℚ) (ws : List String)
    (hlk : LOOKUP_TABLE.lookup word = none) :
    levenshtein word ws 1 cutoff =
        ws.filter (fun d => decide (cutoff < levRatio word.data d.data)) ∧
      suggestWith word cutoff ws "levenshtein" =
        .ok (match ws.filter (fun d => decide (cutoff < levRatio word.data d.data)) with
          | [] => word
          | d :: _ => d) :=
  ⟨levenshtein_eq_filter word ws 1 cutoff, suggestWith_lev hlk⟩

theorem lev_selection_rule_witness :
    (levenshtein "zz" ["zz"] 1 (mkRat 1 2) =
        ["zz"].filter (fun d => decide (mkRat 1 2 < levRatio "zz".data d.data)) ∧
      suggestWith "zz" (mkRat 1 2) ["zz"] "levenshtein" =
        .ok (match ["zz"].filter
            (fun d => decide (mkRat 1 2 < levRatio "zz".data d.data)) with
          | [] => "zz"
          | d :: _ => d)) :=
  lev_selection_rule "zz" (mkRat 1 2) ["zz"] rfl

set_option maxRecDepth 4000 in
/-- C7 (code bug): the claim says `known` keeps only strings present in
    the frequency table.  The source tests `w in words` — membership in
    the argument itself — so every candidate passes, including strings
    that occur nowhere in the reference list. -/
theorem known_filter_reflexive_bug :
    ("zzz" : String) ∈ known ["zzz"] ∧ ("zzz" : String) ∉ MOST_COMMON_DOMAINS := by
  constructor
  · decide
  · decide

/-- C8 (counterexample): the claim says an empty override list replaces
    the default reference list (making any fuzzy match impossible).  The
    source tests Python truthiness, so an empty override falls back to
    the full default list and a match is still produced. -/
theorem empty_override_ignored_counterexample :
    suggest "mailgun.ne" (mkRat 77 100) (some []) "levenshtein" = .ok "mailgun.net" :=
  rfl

/-- C8 (amended): a *non-empty* override list replaces (and is never
    merged with) the default reference list: the call proceeds exactly as
    `suggestWith` on the override list alone. -/
theorem override_replaces_default (word : String) (cutoff : ℚ) (ws : List String)
    (algo : String) (hne : ws ≠ []) :
    suggest word cutoff (some ws) algo = suggestWith word cutoff ws algo :=
  suggest_some_override word cutoff ws algo hne

theorem override_replaces_default_witness :
    suggest "abc" (mkRat 1 2) (some ["zzz.example"]) "difflib" =
      suggestWith "abc" (mkRat 1 2) ["zzz.example"] "difflib" :=
  override_replaces_default "abc" (mkRat 1 2) ["zzz.example"] "difflib" (by decide)

/-- C9 (confirmed): a word that is not a lookup key and whose similarity
    ratio against every reference domain is below the cutoff (a valid
    cutoff in `[0, 1]`) is returned unchanged by a default-variant
    call. -/
theorem no_match_fallback (word : String) (cutoff : ℚ)
    (hlk : LOOKUP_TABLE.lookup word = none) (h0 : 0 ≤ cutoff) (h1 : cutoff ≤ 1)
    (hbelow : ∀ d ∈ MOST_COMMON_DOMAINS, smRatio d.data word.data < cutoff) :
    suggest word cutoff none "difflib" = .ok word := by
  rw [suggest_none_override,
    suggestWith_difflib2 hlk (by decide) (by decide) h0 h1]
  have hqnil : qualList word cutoff MOST_COMMON_DOMAINS = [] := by
    unfold qualList
    apply List.filter_eq_nil_iff.mpr
    intro d hd
    simp only [decide_eq_true_eq]
    exact not_le.mpr (hbelow d hd)
  rw [difflibCands_eq, hqnil]
  rfl

set_option maxRecDepth 4000 in
theorem no_match_fallback_witness :
    suggest "zz" 1 none "difflib" = .ok "zz" := by
  have hne : ∀ d ∈ MOST_COMMON_DOMAINS, d ≠ "zz" := by decide
  exact no_match_fallback "zz" 1 rfl (by decide) (by decide)
    (fun d hd => lt_of_le_of_ne (smRatio_le_one d.data "zz".data)
      (fun he => hne d hd (String.ext (smRatio_eq_one he))))

/-- C10 (confirmed): with all defaults (difflib variant, cutoff 0.77,
    default reference list), `suggest "gmal.com"` returns
    `"gmail.com"`. -/
theorem suggest_gmal_gives_gmail :
    suggest "gmal.com" (mkRat 77 100) none "difflib" = .ok "gmail.com" :=
  rfl

end Flanker
